import Mathlib

set_option linter.unusedVariables false
set_option linter.unnecessarySeqFocus false
set_option linter.unreachableTactic false
set_option linter.unusedTactic false

/-!
Verification development for the atom2remarkable feed pipeline.

The Python sources (config.py, main.py, remarkable.py) are shallowly embedded:
pure helpers become Lean functions, the stateful orchestrator becomes explicit
state passing over a statistics record, subprocess calls to the rmapi bridge
tool become an oracle from commands to call results together with an explicit
trace of the commands issued, and the filesystem becomes a list of existing
paths. Machine time is passed in explicitly wherever the source reads the wall
clock.
-/

/-! ## Time and config.py helpers -/

/-- Wall-clock instants and timestamps are modelled as integers (seconds). -/
abbrev Time := Int

/-- Embeds Config.get_cutoff_time (config.py:47-50): the current time minus
timedelta(hours = RECENT_HOURS). The current time is an explicit argument;
the source reads datetime.now() at each call. -/
def getCutoffTime (now : Time) (recentHours : Int) : Time :=
  now - recentHours * 3600

/-- Character kept by the filename sanitizers (config.py:59-62 and 72-75):
Python c.isalnum() or c in (space, hyphen, underscore), with isalnum modelled
on its ASCII behaviour. -/
def keepChar (c : Char) : Bool :=
  c.isAlphanum || c == ' ' || c == '-' || c == '_'

/-- Python str.strip(): drop whitespace from both ends. -/
def pyStrip (cs : List Char) : List Char :=
  ((cs.dropWhile Char.isWhitespace).reverse.dropWhile Char.isWhitespace).reverse

/-- Calendar date of a publication timestamp, as consumed by strftime. -/
structure Date where
  month : Nat
  day : Nat
  year : Nat
deriving DecidableEq

/-- Zero-padded two-digit decimal, as strftime %m and %d produce. -/
def pad2 (n : Nat) : String :=
  if n < 10 then "0" ++ toString n else toString n

/-- Four-digit year as strftime %Y produces it on CPython/Linux. -/
def pad4 (n : Nat) : String :=
  if n < 10 then "000" ++ toString n
  else if n < 100 then "00" ++ toString n
  else if n < 1000 then "0" ++ toString n
  else toString n

/-- The strftime format %m-%d-%Y used for the filename date (config.py:56). -/
def formatDate (d : Date) : String :=
  pad2 d.month ++ "-" ++ pad2 d.day ++ "-" ++ pad4 d.year

/-- The title normalization inside Config.get_output_filename (config.py:59-65):
keep only alphanumerics, space, hyphen, underscore; strip surrounding
whitespace; truncate to 60 characters. -/
def normTitle (t : String) : List Char :=
  (pyStrip (t.toList.filter keepChar)).take 60

/-- Embeds Config.get_output_filename (config.py:52-67). The feed title is a
parameter of the source function but is not used by it. -/
def getOutputFilename (entry_title feed_title : String) (d : Date) : String :=
  formatDate d ++ " " ++ (normTitle entry_title).asString ++ ".pdf"

/-- Embeds Config.get_feed_directory (config.py:69-80): same sanitization as
the filename, truncated to 50 characters. -/
def getFeedDirectory (feed_title : String) : String :=
  ((pyStrip (feed_title.toList.filter keepChar)).take 50).asString

/-! ## Recency classifier (main.py:149-188) -/

/-- A feed entry as seen by is_entry_recent. Each date source is doubly
optional: the outer layer is attribute presence/truthiness, the inner layer is
whether the conversion succeeds (datetime(*t) for the structured fields, the
dateutil parse with timezone stripped for the text field); a failing
conversion is caught and treated as no date. -/
structure Entry where
  published_parsed : Option (Option Time)
  published : Option (Option Time)
  updated_parsed : Option (Option Time)
deriving DecidableEq

/-- Embeds is_entry_recent (main.py:149-188). The cutoff is recomputed from
the clock argument at every call, exactly as the source calls
Config.get_cutoff_time at main.py:151. -/
def isEntryRecent (now : Time) (recentHours : Int) (e : Entry) :
    Bool × Option Time :=
  let cutoff := getCutoffTime now recentHours
  let d1 : Option Time := match e.published_parsed with
    | some r => r
    | none => none
  let d2 : Option Time := match d1 with
    | some d => some d
    | none => match e.published with
      | some r => r
      | none => none
  let d3 : Option Time := match d2 with
    | some d => some d
    | none => match e.updated_parsed with
      | some r => r
      | none => none
  match d3 with
  | none => (false, none)
  | some d => (decide (d > cutoff), some d)

/-- The cutoff value used by the i-th call to is_entry_recent within a run,
when the wall clock reads clock i at that call (main.py:151 recomputes it
per call via Config.get_cutoff_time). -/
def cutoffUsed (clock : Nat → Time) (recentHours : Int) (i : Nat) : Time :=
  getCutoffTime (clock i) recentHours

/-! ## Run statistics and exit code -/

/-- The statistics dictionary of AtomFeedProcessor (main.py:41-52). -/
structure Stats where
  feeds_processed : Nat
  feeds_failed : Nat
  entries_found : Nat
  entries_recent : Nat
  pdfs_generated : Nat
  pdfs_skipped : Nat
  pdfs_failed : Nat
  remarkable_uploaded : Nat
  remarkable_skipped : Nat
  remarkable_failed : Nat
deriving DecidableEq

/-- Embeds the exit-status decision of main (main.py:536-541): 1 when some
pdfs failed and none were generated, else 2 when some feeds failed, else 0. -/
def exitCode (s : Stats) : Nat :=
  if 0 < s.pdfs_failed ∧ s.pdfs_generated = 0 then 1
  else if 0 < s.feeds_failed then 2
  else 0

/-! ## Renderer and local publication gate (main.py:306-367) -/

/-- Outcomes of the two collaborator steps inside generate_pdf: whether the
template load and render raise, and whether the weasyprint engine invocation
raises. -/
structure RenderEnv where
  templateOk : Bool
  engineOk : Bool

/-- The output path resolved by generate_pdf (main.py:323-336):
OUTPUT_DIR, the sanitized feed directory, and the generated filename. -/
def resolvedPdfPath (outDir entry_title feed_title : String) (d : Date) : String :=
  outDir ++ "/" ++ getFeedDirectory feed_title ++ "/" ++
    getOutputFilename entry_title feed_title d

/-- Embeds generate_pdf (main.py:306-367) against a filesystem modelled as
the list of existing file paths. Returns the pair the source returns (path
option, was_skipped), the filesystem afterwards, and the number of
document-engine (weasyprint) invocations performed. A template failure is
caught by the outer handler and yields (none, false); if the resolved path
already exists the existing path is returned with was_skipped = true before
the engine is ever invoked; an engine failure is caught and yields
(none, false). -/
def generate_pdf (env : RenderEnv) (outDir : String) (fs : List String)
    (entry_title feed_title : String) (d : Date) :
    (Option String × Bool) × List String × Nat :=
  if ¬ env.templateOk then ((none, false), fs, 0)
  else
    let path := resolvedPdfPath outDir entry_title feed_title d
    if path ∈ fs then ((some path, true), fs, 0)
    else if env.engineOk then ((some path, false), path :: fs, 1)
    else ((none, false), fs, 1)

/-! ## Feed run orchestrator (main.py:369-496) -/

/-- Outcome of processing one entry inside the per-entry try of process_feed
(main.py:386-420). raise afterRecent means an uncaught exception escaped the
body; afterRecent records whether the entries_recent increment had already
happened. notRecent is the early continue. pdf is the value returned by
generate_pdf for a recent entry. -/
inductive EntryEval where
  | raise (afterRecent : Bool)
  | notRecent
  | pdf (path : Option String) (was_skipped : Bool)

/-- One increment of pdfs_failed, as the per-entry except branch performs
(main.py:414-420). -/
def markEntryFailed (s : Stats) : Stats :=
  { s with pdfs_failed := s.pdfs_failed + 1 }

/-- One increment of entries_recent (main.py:394). -/
def markEntryRecent (s : Stats) : Stats :=
  { s with entries_recent := s.entries_recent + 1 }

/-- The body of the per-entry loop of process_feed (main.py:386-420): updates
the statistics and appends the produced or pre-existing path. -/
def runEntry (s : Stats) (ps : List String) : EntryEval → Stats × List String
  | .raise after =>
    let s1 := if after then markEntryRecent s else s
    (markEntryFailed s1, ps)
  | .notRecent => (s, ps)
  | .pdf p skipped =>
    let s1 := markEntryRecent s
    match p with
    | some path =>
      if skipped then ({ s1 with pdfs_skipped := s1.pdfs_skipped + 1 }, ps ++ [path])
      else ({ s1 with pdfs_generated := s1.pdfs_generated + 1 }, ps ++ [path])
    | none => (markEntryFailed s1, ps)

/-- The per-entry loop of process_feed over the entries of one feed. -/
def runEntries (s : Stats) (ps : List String) :
    List EntryEval → Stats × List String
  | [] => (s, ps)
  | e :: es =>
    let (s', ps') := runEntry s ps e
    runEntries s' ps' es

/-- What happened to one feed URL. fetchFail is fetch_feed returning None;
ok es is a successful fetch whose entries evaluate as es; raiseDuring n es is
a successful fetch of a feed with n entries where an exception escaped
process_feed after the prefix es of entries had been handled (the exception is
caught at main.py:464-469). -/
inductive FeedEval where
  | fetchFail
  | ok (es : List EntryEval)
  | raiseDuring (n : Nat) (es : List EntryEval)

/-- One increment of feeds_failed (main.py:376 and main.py:468). -/
def markFeedFailed (s : Stats) : Stats :=
  { s with feeds_failed := s.feeds_failed + 1 }

/-- The updates at the head of process_feed after a successful fetch
(main.py:379-384): feeds_processed and entries_found. -/
def markFeedFetched (n : Nat) (s : Stats) : Stats :=
  { s with feeds_processed := s.feeds_processed + 1,
           entries_found := s.entries_found + n }

/-- Embeds process_feed (main.py:369-425) for a completed call. -/
def runFeed (s : Stats) (ps : List String) : FeedEval → Stats × List String
  | .fetchFail => (markFeedFailed s, ps)
  | .ok es => runEntries (markFeedFetched es.length s) ps es
  | .raiseDuring n es => runEntries (markFeedFetched n s) ps es

/-- Embeds the per-feed loop of process_all_feeds (main.py:459-469). For a
feed whose processing raises, the statistics mutations already performed by
process_feed remain (self.stats is shared), the paths of that feed are lost
(process_feed never returns), feeds_failed is incremented by the except
branch, and the loop continues with the remaining feeds. -/
def runFeeds (s : Stats) (ps : List String) :
    List FeedEval → Stats × List String
  | [] => (s, ps)
  | .fetchFail :: fs => runFeeds (markFeedFailed s) ps fs
  | .ok es :: fs =>
    let (s', ps') := runEntries (markFeedFetched es.length s) ps es
    runFeeds s' ps' fs
  | .raiseDuring n es :: fs =>
    let (s', _) := runEntries (markFeedFetched n s) [] es
    runFeeds (markFeedFailed s') ps fs

/-! ## Remote publication gate (remarkable.py) -/

/-- The four rmapi bridge-tool invocations (remarkable.py). -/
inductive Cmd where
  | version
  | find (p : String)
  | mkdir (p : String)
  | put (file folder : String)
deriving DecidableEq

/-- Result of one subprocess.run of the bridge tool: a completed process with
exit code, stdout and stderr; a timeout; or a raised exception such as
FileNotFoundError. -/
inductive CallRes where
  | done (returncode : Int) (stdout stderr : String)
  | timeout
  | exn
deriving DecidableEq

/-- The remote store and process environment, as an oracle from a command to
its result. The embedded functions also return the trace of commands issued,
in order. -/
def RmEnv : Type := Cmd → CallRes

/-- ASCII lower-casing of one character, as str.lower() does on this range. -/
def lowerChar (c : Char) : Char :=
  if 'A' ≤ c ∧ c ≤ 'Z' then Char.ofNat (c.toNat + 32) else c

/-- Python str.lower(), modelled on the ASCII range. -/
def lowerStr (s : String) : String :=
  (s.toList.map lowerChar).asString

/-- Substring containment, for the "already exists" check on stderr. -/
def containsSub (hay needle : List Char) : Bool :=
  hay.tails.any (fun t => needle.isPrefixOf t)

/-- Embeds check_rmapi_available (remarkable.py:18-41): a version call,
true exactly on exit code 0; timeouts and exceptions give false. -/
def check_rmapi_available (env : RmEnv) : Bool × List Cmd :=
  (match env .version with
   | .done rc _ _ => rc == 0
   | _ => false,
   [.version])

/-- Python str.strip() on a stdout string. -/
def strTrim (s : String) : String :=
  (pyStrip s.toList).asString

/-- The find-based existence test shared by ensure_folder_exists,
ensure_subfolder_exists and file_exists_in_remarkable: exit code 0 with
non-empty stripped stdout means present; timeouts and exceptions mean
absent. -/
def findHit (env : RmEnv) (p : String) : Bool :=
  match env (.find p) with
  | .done rc out _ => rc == 0 && strTrim out ≠ ""
  | _ => false

/-- Embeds ensure_folder_exists (remarkable.py:43-83): find the folder; if
absent, mkdir it, tolerating a failure whose lower-cased stderr contains
"already exists". A timeout or exception anywhere gives false. -/
def ensure_folder_exists (env : RmEnv) (folder : String) : Bool × List Cmd :=
  match env (.find folder) with
  | .done rc out _ =>
    if rc == 0 && strTrim out ≠ "" then (true, [.find folder])
    else
      match env (.mkdir folder) with
      | .done rc2 _ err2 =>
        if rc2 == 0 then (true, [.find folder, .mkdir folder])
        else if containsSub (lowerStr err2).toList "already exists".toList then
          (true, [.find folder, .mkdir folder])
        else (false, [.find folder, .mkdir folder])
      | _ => (false, [.find folder, .mkdir folder])
  | _ => (false, [.find folder])

/-- Embeds ensure_subfolder_exists (remarkable.py:85-125); the source
duplicates the logic of ensure_folder_exists verbatim for a subfolder path. -/
def ensure_subfolder_exists (env : RmEnv) (subfolderPath : String) :
    Bool × List Cmd :=
  ensure_folder_exists env subfolderPath

/-- Embeds file_exists_in_remarkable (remarkable.py:127-145). -/
def file_exists_in_remarkable (env : RmEnv) (p : String) : Bool × List Cmd :=
  (findHit env p, [.find p])

/-- A local filesystem path as its pathlib parts, filename last. -/
structure LocalPath where
  parts : List String
deriving DecidableEq

/-- The last path component (pathlib .name). -/
def pathName (p : LocalPath) : String :=
  p.parts.getLastD ""

/-- pathlib .stem of a filename: the name without its last dot-suffix, where
a dot at position 0 does not start a suffix. -/
def pathStem (name : String) : String :=
  if (name.toList.reverse.takeWhile (· ≠ '.')).length < name.toList.length then
    if name.toList.length - (name.toList.reverse.takeWhile (· ≠ '.')).length - 1 = 0
    then name
    else (name.toList.take
      (name.toList.length -
        (name.toList.reverse.takeWhile (· ≠ '.')).length - 1)).asString
  else name

/-- str(pdf_path): the parts joined by the separator. -/
def pathStr (p : LocalPath) : String :=
  String.intercalate "/" p.parts

/-- Embeds get_remarkable_file_path (remarkable.py:147-155): the remote key
folder/subfolder/stem, or folder/stem when no subfolder is given. -/
def get_remarkable_file_path (folder : String) (p : LocalPath)
    (sub : Option String) : String :=
  match sub with
  | some s => folder ++ "/" ++ s ++ "/" ++ pathStem (pathName p)
  | none => folder ++ "/" ++ pathStem (pathName p)

/-- The upload invocation at the end of upload_pdf (remarkable.py:185-197):
true exactly on exit code 0. -/
def putStep (env : RmEnv) (p : LocalPath) (target : String) : Bool × List Cmd :=
  (match env (.put (pathStr p) target) with
   | .done rc _ _ => rc == 0
   | _ => false,
   [.put (pathStr p) target])

/-- Embeds upload_pdf (remarkable.py:157-204): skip as success when the
remote key already exists; otherwise ensure the folder (and subfolder when
given) and invoke put. -/
def upload_pdf (env : RmEnv) (folder : String) (p : LocalPath)
    (sub : Option String) : Bool × List Cmd :=
  let key := get_remarkable_file_path folder p sub
  let tr1 := (file_exists_in_remarkable env key).2
  if (file_exists_in_remarkable env key).1 then (true, tr1)
  else
    match sub with
    | some s =>
      let target := folder ++ "/" ++ s
      let tr2 := (ensure_folder_exists env folder).2
      if ¬ (ensure_folder_exists env folder).1 then (false, tr1 ++ tr2)
      else
        let tr3 := (ensure_subfolder_exists env target).2
        if ¬ (ensure_subfolder_exists env target).1 then (false, tr1 ++ tr2 ++ tr3)
        else ((putStep env p target).1, tr1 ++ tr2 ++ tr3 ++ (putStep env p target).2)
    | none =>
      let tr2 := (ensure_folder_exists env folder).2
      if ¬ (ensure_folder_exists env folder).1 then (false, tr1 ++ tr2)
      else ((putStep env p folder).1, tr1 ++ tr2 ++ (putStep env p folder).2)

/-- The subfolder inference of upload_pdfs (remarkable.py:222-227): the
parent directory name when the grandparent segment is the literal string
"output". -/
def inferFeedSubfolder (p : LocalPath) : Option String :=
  if 3 ≤ p.parts.length && p.parts.getD (p.parts.length - 3) "" == "output"
  then some (p.parts.getD (p.parts.length - 2) "")
  else none

/-- The result dictionary of upload_pdfs. -/
structure UploadCounts where
  uploaded : Nat
  failed : Nat
  skipped : Nat
deriving DecidableEq

/-- The per-file loop of upload_pdfs (remarkable.py:220-243): existence check
first (skip), otherwise upload_pdf (uploaded or failed). -/
def uploadLoop (env : RmEnv) (folder : String) :
    List LocalPath → UploadCounts × List Cmd
  | [] => (⟨0, 0, 0⟩, [])
  | p :: rest =>
    let sub := inferFeedSubfolder p
    let key := get_remarkable_file_path folder p sub
    let tr1 := (file_exists_in_remarkable env key).2
    let c := (uploadLoop env folder rest).1
    let tr := (uploadLoop env folder rest).2
    if (file_exists_in_remarkable env key).1 then
      ({ c with skipped := c.skipped + 1 }, tr1 ++ tr)
    else if (upload_pdf env folder p sub).1 then
      ({ c with uploaded := c.uploaded + 1 },
        tr1 ++ (upload_pdf env folder p sub).2 ++ tr)
    else
      ({ c with failed := c.failed + 1 },
        tr1 ++ (upload_pdf env folder p sub).2 ++ tr)

/-- Embeds upload_pdfs (remarkable.py:206-246): availability check, root
folder check, then the per-file loop. Either precondition failing counts
every input as skipped with nothing attempted. -/
def upload_pdfs (env : RmEnv) (folder : String) (files : List LocalPath) :
    UploadCounts × List Cmd :=
  let tr0 := (check_rmapi_available env).2
  if ¬ (check_rmapi_available env).1 then (⟨0, 0, files.length⟩, tr0)
  else
    let tr1 := (ensure_folder_exists env folder).2
    if ¬ (ensure_folder_exists env folder).1 then
      (⟨0, 0, files.length⟩, tr0 ++ tr1)
    else
      ((uploadLoop env folder files).1,
        tr0 ++ tr1 ++ (uploadLoop env folder files).2)

/-- The subfolder inference as the specification words it: the parent
directory name exactly when the grandparent segment equals the configured
output root (whose basename is passed here). Stated for comparison with
inferFeedSubfolder, which the code implements. -/
def specInferSubfolder (outputRootBase : String) (p : LocalPath) :
    Option String :=
  if 3 ≤ p.parts.length && p.parts.getD (p.parts.length - 3) "" == outputRootBase
  then some (p.parts.getD (p.parts.length - 2) "")
  else none

/-! ## HTML sanitizer (main.py:190-219)

clean_html_content parses its input with the markup collaborator
(BeautifulSoup over html.parser), removes the unsafe element types together
with their descendants, strips every attribute outside the allow-list, and
serializes the tree back to a string. The collaborator pair
(parse, serialize) is modelled concretely below: a DOM of text and element
nodes, a serializer that entity-escapes text and attribute values, and a
total tokenizing parser that lowercases names, decodes the entities the
serializer emits, treats a stray left angle bracket as literal text, ignores
unmatched close tags, and auto-closes unclosed elements at the end of
input. -/

/-- A DOM node: a text run, or an element with tag, attributes and
children. All strings are kept as character lists. -/
inductive Node where
  | text (s : List Char)
  | elem (tag : List Char) (attrs : List (List Char × List Char)) (children : List Node)

/-- Serialization of one text character: the markup metacharacters become
entities. -/
def escTextChar (c : Char) : List Char :=
  if c = '&' then ['&', 'a', 'm', 'p', ';']
  else if c = '<' then ['&', 'l', 't', ';']
  else if c = '>' then ['&', 'g', 't', ';']
  else [c]

/-- Entity-escaping of a text run. -/
def escText (s : List Char) : List Char :=
  s.flatMap escTextChar

/-- Serialization of one attribute-value character. -/
def escAttrChar (c : Char) : List Char :=
  if c = '&' then ['&', 'a', 'm', 'p', ';']
  else if c = '"' then ['&', 'q', 'u', 'o', 't', ';']
  else if c = '<' then ['&', 'l', 't', ';']
  else if c = '>' then ['&', 'g', 't', ';']
  else [c]

/-- Entity-escaping of an attribute value. -/
def escAttr (s : List Char) : List Char :=
  s.flatMap escAttrChar

/-- Serialization of an attribute list: space, name, equals, quoted escaped
value. -/
def serAttrs (as : List (List Char × List Char)) : List Char :=
  as.flatMap (fun kv => ' ' :: kv.1 ++ ('=' :: '"' :: escAttr kv.2 ++ ['"']))

mutual
/-- Serialization of one node. -/
def serNode : Node → List Char
  | .text s => escText s
  | .elem t as cs =>
    '<' :: (t ++ serAttrs as) ++ ('>' :: serNodes cs) ++ ('<' :: '/' :: t ++ ['>'])
/-- Serialization of a node list. -/
def serNodes : List Node → List Char
  | [] => []
  | n :: ns => serNode n ++ serNodes ns
end

/-- Entity decoding, as the parser applies it to text runs and attribute
values: the four entities the serializer emits are decoded, any other
ampersand stays literal. -/
def decodeEnt : List Char → List Char
  | [] => []
  | c :: cs =>
    if c = '&' then
      if cs.take 4 = ['a', 'm', 'p', ';'] then '&' :: decodeEnt (cs.drop 4)
      else if cs.take 3 = ['l', 't', ';'] then '<' :: decodeEnt (cs.drop 3)
      else if cs.take 3 = ['g', 't', ';'] then '>' :: decodeEnt (cs.drop 3)
      else if cs.take 5 = ['q', 'u', 'o', 't', ';'] then '"' :: decodeEnt (cs.drop 5)
      else c :: decodeEnt cs
    else c :: decodeEnt cs
termination_by cs => cs.length
decreasing_by all_goals (simp [List.length_drop]; try omega)

/-- First character of a name. -/
def isNameStart (c : Char) : Bool := c.isAlpha

/-- Character allowed inside a tag or attribute name. -/
def isNameChar (c : Char) : Bool := c.isAlphanum

/-- The attribute portion of a start tag, with fuel for termination:
whitespace-separated name="value" pairs (also accepting unquoted and bare
attributes), ended by a plain or self-closing tag end. Malformed input gives
none and the whole tag is treated as text. -/
def parseAttrs : Nat → List Char →
    Option (List (List Char × List Char) × Bool × List Char)
  | 0, _ => none
  | fuel + 1, cs =>
    let cs1 := cs.dropWhile Char.isWhitespace
    match cs1 with
    | [] => none
    | c :: rest =>
      if c = '>' then some ([], false, rest)
      else if c = '/' then
        match rest with
        | d :: r2 => if d = '>' then some ([], true, r2) else none
        | [] => none
      else if isNameStart c then
        let an := ((c :: rest).takeWhile isNameChar).map lowerChar
        let r1 := (c :: rest).dropWhile isNameChar
        match r1 with
        | d :: r2 =>
          if d = '=' then
            match r2 with
            | e :: r3 =>
              if e = '"' then
                let v := r3.takeWhile (fun ch => ch ≠ '"')
                let r4 := r3.dropWhile (fun ch => ch ≠ '"')
                match r4 with
                | _ :: r5 =>
                  match parseAttrs fuel r5 with
                  | some (as, sc, r6) => some ((an, decodeEnt v) :: as, sc, r6)
                  | none => none
                | [] => none
              else
                let v := r2.takeWhile (fun ch => ¬ ch.isWhitespace && ch ≠ '>')
                let r3' := r2.dropWhile (fun ch => ¬ ch.isWhitespace && ch ≠ '>')
                match parseAttrs fuel r3' with
                | some (as, sc, r6) => some ((an, v) :: as, sc, r6)
                | none => none
            | [] => none
          else
            match parseAttrs fuel r1 with
            | some (as, sc, r6) => some ((an, []) :: as, sc, r6)
            | none => none
        | [] => none
      else none

/-- A start tag after its left angle bracket: lowercased name, then the
attribute portion. -/
def parseTag (cs : List Char) :
    Option (List Char × List (List Char × List Char) × Bool × List Char) :=
  let t := (cs.takeWhile isNameChar).map lowerChar
  let r := cs.dropWhile isNameChar
  match parseAttrs (r.length + 1) r with
  | some (as, sc, r2) => some (t, as, sc, r2)
  | none => none

/-- Consume the close tag of the given element if it is next; otherwise leave
the input unchanged (the element is auto-closed and the close tag is left for
an enclosing scope). -/
def consumeClose (t : List Char) (cs : List Char) : List Char :=
  match cs with
  | a :: b :: r =>
    if a = '<' ∧ b = '/' then
      let n := (r.takeWhile isNameChar).map lowerChar
      let r1 := (r.dropWhile isNameChar).dropWhile Char.isWhitespace
      match r1 with
      | g :: r2 => if g = '>' ∧ n = t then r2 else cs
      | [] => cs
    else cs
  | _ => cs

/-- Node-list parsing with fuel: returns the nodes parsed up to the next
close tag or the end of input, and the remaining input (empty, or beginning
with a close tag). A left angle bracket that does not begin a well-formed
tag is taken as literal text. -/
def parseNodes : Nat → List Char → List Node × List Char
  | 0, cs => ([], cs)
  | fuel + 1, cs =>
    match cs with
    | [] => ([], [])
    | c :: cs1 =>
      if c = '<' then
        match cs1 with
        | [] => ([.text ['<']], [])
        | d :: cs2 =>
          if d = '/' then ([], c :: cs1)
          else if isNameStart d then
            match parseTag cs1 with
            | some (t, as, sc, r) =>
              if sc then
                let (sib, r2) := parseNodes fuel r
                (.elem t as [] :: sib, r2)
              else
                let (children, r2) := parseNodes fuel r
                let r3 := consumeClose t r2
                let (sib, r4) := parseNodes fuel r3
                (.elem t as children :: sib, r4)
            | none =>
              let (sib, r2) := parseNodes fuel cs1
              (.text ['<'] :: sib, r2)
          else
            let (sib, r2) := parseNodes fuel cs1
            (.text ['<'] :: sib, r2)
      else
        let txt := (c :: cs1).takeWhile (fun ch => ch ≠ '<')
        let r := (c :: cs1).dropWhile (fun ch => ch ≠ '<')
        let (sib, r2) := parseNodes fuel r
        (.text (decodeEnt txt) :: sib, r2)

/-- Top-level parsing: parse node lists, skipping over stray close tags
between them. -/
def parseTop : Nat → List Char → List Node
  | 0, _ => []
  | fuel + 1, cs =>
    let (ns, rest) := parseNodes (cs.length + 1) cs
    match rest with
    | [] => ns
    | _ :: r1 =>
      let r2 := r1.dropWhile (fun ch => ch ≠ '>')
      match r2 with
      | _ :: r3 => ns ++ parseTop fuel r3
      | [] => ns

/-- The document produced by the markup collaborator for a string. -/
def parseHtml (cs : List Char) : List Node :=
  parseTop (cs.length + 1) cs

/-- The element types removed entirely by clean_html_content
(main.py:200-201). -/
def unsafeTags : List (List Char) :=
  ["script".toList, "style".toList, "iframe".toList, "object".toList,
   "embed".toList]

/-- The attribute allow-list of clean_html_content (main.py:206). -/
def safeAttrs : List (List Char) :=
  ["href".toList, "src".toList, "alt".toList, "title".toList,
   "class".toList, "id".toList]

/-- The decompose loop of clean_html_content (main.py:200-201): every
element whose tag is one of the unsafe types is removed together with its
descendants, at every depth. -/
def removeUnsafeL : List Node → List Node
  | [] => []
  | .text s :: ns => .text s :: removeUnsafeL ns
  | .elem t as cs :: ns =>
    if t ∈ unsafeTags then removeUnsafeL ns
    else .elem t as (removeUnsafeL cs) :: removeUnsafeL ns

/-- The attribute-stripping loop of clean_html_content (main.py:204-210):
every remaining element keeps only the allow-listed attributes, at every
depth. -/
def filterAttrsL : List Node → List Node
  | [] => []
  | .text s :: ns => .text s :: filterAttrsL ns
  | .elem t as cs :: ns =>
    .elem t (as.filter (fun kv => kv.1 ∈ safeAttrs)) (filterAttrsL cs) ::
      filterAttrsL ns

/-- The tree transformation performed by clean_html_content between parsing
and serialization. -/
def cleanNodes (ns : List Node) : List Node :=
  filterAttrsL (removeUnsafeL ns)

/-- Embeds clean_html_content (main.py:190-219): empty input short-circuits
to the empty string before the try block; otherwise the try block parses,
removes unsafe elements, strips non-allow-listed attributes and serializes,
while the except branch (main.py:217-219) returns the original content
unchanged when the markup collaborator raises. Whether BeautifulSoup raises
on a given input (e.g. a RecursionError on deeply nested markup) is decided
inside the external library, so it is modelled as an oracle parameter
mapping the input string to the raise/no-raise outcome. -/
def clean_html_content (raises : String → Bool) (s : String) : String :=
  if s = "" then ""
  else if raises s then s
  else (serNodes (cleanNodes (parseHtml s.toList))).asString

/-- Adjacent text runs merged, at every depth. Reparsing serialized output
performs exactly this normalization, since two adjacent text nodes serialize
indistinguishably from one merged node. -/
def mergeTexts : List Node → List Node
  | [] => []
  | .elem t as cs :: ns => .elem t as (mergeTexts cs) :: mergeTexts ns
  | .text s :: ns =>
    match mergeTexts ns with
    | .text s2 :: ms => .text (s ++ s2) :: ms
    | ms => .text s :: ms

/-- A well-formed name: nonempty, leading alphabetic character, alphanumeric
throughout, fixed by lower-casing. -/
def wfName (t : List Char) : Bool :=
  match t with
  | [] => false
  | c :: _ => isNameStart c && t.all (fun x => isNameChar x && lowerChar x == x)

/-- Well-formed attribute list: every attribute name is well formed. -/
def wfAttrs (as : List (List Char × List Char)) : Bool :=
  as.all (fun kv => wfName kv.1)

/-- Whether a node list does not begin with a text node. -/
def headNotText : List Node → Bool
  | .text _ :: _ => false
  | _ => true

/-- Parser-shaped trees: text runs nonempty, names and attribute names well
formed, at every depth. -/
inductive PreOkL : List Node → Prop where
  | nil : PreOkL []
  | text (s : List Char) (ns : List Node) :
      s ≠ [] → PreOkL ns → PreOkL (.text s :: ns)
  | elem (t : List Char) (as : List (List Char × List Char))
      (cs ns : List Node) :
      wfName t = true → wfAttrs as = true → PreOkL cs → PreOkL ns →
      PreOkL (.elem t as cs :: ns)

/-- Canonical trees: parser-shaped and with no two adjacent text runs, at
every depth. Serialization followed by parsing is the identity here. -/
inductive OkL : List Node → Prop where
  | nil : OkL []
  | text (s : List Char) (ns : List Node) :
      s ≠ [] → headNotText ns = true → OkL ns → OkL (.text s :: ns)
  | elem (t : List Char) (as : List (List Char × List Char))
      (cs ns : List Node) :
      wfName t = true → wfAttrs as = true → OkL cs → OkL ns →
      OkL (.elem t as cs :: ns)

/-- Sanitized trees: no unsafe element type and no attribute outside the
allow-list, at every depth. This is the shape the specification asserts of
sanitizer output. -/
inductive SafeL : List Node → Prop where
  | nil : SafeL []
  | text (s : List Char) (ns : List Node) : SafeL ns → SafeL (.text s :: ns)
  | elem (t : List Char) (as : List (List Char × List Char))
      (cs ns : List Node) :
      t ∉ unsafeTags → (∀ kv ∈ as, kv.1 ∈ safeAttrs) → SafeL cs → SafeL ns →
      SafeL (.elem t as cs :: ns)

/-! ## Theorems -/

/-! ### Helper lemmas on the recency classifier -/

/-- When no date source resolves the classifier answers (false, none). -/
theorem isEntryRecent_of_none (now : Time) (h : Int) (e : Entry)
    (hd : (isEntryRecent now h e).2 = none) :
    isEntryRecent now h e = (false, none) := by
  unfold isEntryRecent at hd ⊢
  rcases e with ⟨pp, pt, up⟩
  cases pp with
  | some r =>
    cases r with
    | some d => simp at hd
    | none =>
      cases pt with
      | some r2 =>
        cases r2 with
        | some d => simp at hd
        | none =>
          cases up with
          | some r3 => cases r3 with
            | some d => simp at hd
            | none => rfl
          | none => rfl
      | none =>
        cases up with
        | some r3 => cases r3 with
          | some d => simp at hd
          | none => rfl
        | none => rfl
  | none =>
    cases pt with
    | some r2 =>
      cases r2 with
      | some d => simp at hd
      | none =>
        cases up with
        | some r3 => cases r3 with
          | some d => simp at hd
          | none => rfl
        | none => rfl
    | none =>
      cases up with
      | some r3 => cases r3 with
        | some d => simp at hd
        | none => rfl
      | none => rfl

/-- When a date resolves, the recency answer is exactly the strict comparison
of that date with the cutoff. -/
theorem isEntryRecent_of_some (now : Time) (h : Int) (e : Entry) (d : Time)
    (hd : (isEntryRecent now h e).2 = some d) :
    (isEntryRecent now h e).1 = decide (d > getCutoffTime now h) := by
  unfold isEntryRecent at hd ⊢
  rcases e with ⟨pp, pt, up⟩
  cases pp with
  | some r =>
    cases r with
    | some d0 => simp at hd; subst hd; simp [getCutoffTime]
    | none =>
      cases pt with
      | some r2 =>
        cases r2 with
        | some d0 => simp at hd; subst hd; simp [getCutoffTime]
        | none =>
          cases up with
          | some r3 => cases r3 with
            | some d0 => simp at hd; subst hd; simp [getCutoffTime]
            | none => simp at hd
          | none => simp at hd
      | none =>
        cases up with
        | some r3 => cases r3 with
          | some d0 => simp at hd; subst hd; simp [getCutoffTime]
          | none => simp at hd
        | none => simp at hd
  | none =>
    cases pt with
    | some r2 =>
      cases r2 with
      | some d0 => simp at hd; subst hd; simp [getCutoffTime]
      | none =>
        cases up with
        | some r3 => cases r3 with
          | some d0 => simp at hd; subst hd; simp [getCutoffTime]
          | none => simp at hd
        | none => simp at hd
    | none =>
      cases up with
      | some r3 => cases r3 with
        | some d0 => simp at hd; subst hd; simp [getCutoffTime]
        | none => simp at hd
      | none => simp at hd

/-- C5: is_entry_recent returns (false, absent) when no date source
resolves, never defaulting the date; when a date resolves, recency equals
the strict comparison resolved > cutoff, so a timestamp exactly at the
cutoff is classified not recent. -/
theorem c5_recency_classifier :
    ∀ (now : Time) (h : Int) (e : Entry),
      ((isEntryRecent now h e).2 = none →
        isEntryRecent now h e = (false, none)) ∧
      (∀ d, (isEntryRecent now h e).2 = some d →
        (isEntryRecent now h e).1 = decide (d > getCutoffTime now h)) ∧
      ((isEntryRecent now h e).2 = some (getCutoffTime now h) →
        (isEntryRecent now h e).1 = false) := by
  intro now h e
  refine ⟨isEntryRecent_of_none now h e, fun d => isEntryRecent_of_some now h e d, ?_⟩
  intro hb
  rw [isEntryRecent_of_some now h e _ hb]
  simp

/-- Concrete instance for C5: an entry with no date source at all is
classified (false, none), and an entry resolving exactly to the cutoff is
not recent. -/
theorem c5_recency_classifier_witness :
    (isEntryRecent 0 24 ⟨none, none, none⟩).2 = none ∧
    isEntryRecent 0 24 ⟨none, none, none⟩ = (false, none) ∧
    (isEntryRecent 7200 1 ⟨some (some 3600), none, none⟩).1 = false :=
  ⟨by decide,
   (c5_recency_classifier 0 24 ⟨none, none, none⟩).1 (by decide),
   (c5_recency_classifier 7200 1 ⟨some (some 3600), none, none⟩).2.2 (by decide)⟩

/-! ### C6: exit status -/

/-- C6 counterexample: a run with one document failure alongside one
generated document and no feed failures exits with the success code, so
success is not equivalent to the absence of document failures. -/
theorem c6_counterexample :
    exitCode { feeds_processed := 1, feeds_failed := 0, entries_found := 2,
               entries_recent := 2, pdfs_generated := 1, pdfs_skipped := 0,
               pdfs_failed := 1, remarkable_uploaded := 1,
               remarkable_skipped := 0, remarkable_failed := 0 } = 0 ∧
    (({ feeds_processed := 1, feeds_failed := 0, entries_found := 2,
        entries_recent := 2, pdfs_generated := 1, pdfs_skipped := 0,
        pdfs_failed := 1, remarkable_uploaded := 1,
        remarkable_skipped := 0, remarkable_failed := 0 } : Stats).pdfs_failed
      ≠ 0) := by
  constructor
  · decide
  · decide

/-- C6 amended: the exit status is the success code exactly when no feeds
failed and the run was not a total document failure (some document failure
with none generated); it is the total-failure code exactly when some
documents failed and none were generated; and the partial-failure code
exactly when some feeds failed and the run was not a total document
failure. -/
theorem c6_exit_code_amended :
    ∀ s : Stats,
      (exitCode s = 0 ↔
        s.feeds_failed = 0 ∧ (s.pdfs_failed = 0 ∨ 0 < s.pdfs_generated)) ∧
      (exitCode s = 1 ↔ 0 < s.pdfs_failed ∧ s.pdfs_generated = 0) ∧
      (exitCode s = 2 ↔
        0 < s.feeds_failed ∧ (s.pdfs_failed = 0 ∨ 0 < s.pdfs_generated)) := by
  intro s
  by_cases h1 : 0 < s.pdfs_failed ∧ s.pdfs_generated = 0 <;>
    by_cases h2 : 0 < s.feeds_failed <;>
      simp [exitCode, h1, h2] <;> omega

/-! ### C7: cutoff recomputation -/

/-- C7 counterexample: with a clock that has advanced by one second between
two classifications in the same run, the two calls of is_entry_recent use
different cutoff values, so the cutoff is not computed once per run. -/
theorem c7_counterexample :
    cutoffUsed (fun i => (i : Int)) 24 0 ≠ cutoffUsed (fun i => (i : Int)) 24 1 := by
  decide

/-- C7 amended: the cutoff is recomputed at every call of is_entry_recent
from the clock reading of that call; the cutoffs used by two calls of one
run differ by exactly the clock drift between the calls (in particular they
coincide only when the clock reading has not changed), and each call
classifies against its own cutoff. -/
theorem c7_cutoff_amended :
    ∀ (clock : Nat → Time) (h : Int) (i j : Nat),
      cutoffUsed clock h i = getCutoffTime (clock i) h ∧
      cutoffUsed clock h i - cutoffUsed clock h j = clock i - clock j ∧
      (clock i = clock j → cutoffUsed clock h i = cutoffUsed clock h j) ∧
      (∀ e d, (isEntryRecent (clock i) h e).2 = some d →
        (isEntryRecent (clock i) h e).1 = decide (d > cutoffUsed clock h i)) := by
  intro clock h i j
  refine ⟨rfl, ?_, ?_, ?_⟩
  · unfold cutoffUsed getCutoffTime; ring
  · intro hij; simp [cutoffUsed, getCutoffTime, hij]
  · intro e d hd
    exact isEntryRecent_of_some (clock i) h e d hd

/-- Concrete instance for C7 amended: a stalled clock gives equal cutoffs,
and a concrete entry is classified against the cutoff of its own call. -/
theorem c7_cutoff_amended_witness :
    cutoffUsed (fun _ => (7200 : Int)) 1 0 = cutoffUsed (fun _ => (7200 : Int)) 1 1 ∧
    (isEntryRecent ((fun _ : Nat => (7200 : Int)) 0) 1 ⟨some (some 3700), none, none⟩).1
      = decide ((3700 : Int) > cutoffUsed (fun _ => (7200 : Int)) 1 0) :=
  ⟨(c7_cutoff_amended (fun _ => (7200 : Int)) 1 0 1).2.2.1 rfl,
   (c7_cutoff_amended (fun _ => (7200 : Int)) 1 0 1).2.2.2
     ⟨some (some 3700), none, none⟩ 3700 (by decide)⟩

/-! ### C3: local publication gate -/

/-- C3: when the resolved output path already exists, generate_pdf returns
that path reporting skip without any document-engine invocation; the
orchestrator counts such an entry as pdfs_skipped, leaving pdfs_generated
and pdfs_failed unchanged; and after a successful fresh render, a second
call for the same entry, date and feed skips with the pre-existing path, so
the engine runs exactly once across the two calls. -/
theorem c3_local_gate :
    ∀ (env env2 : RenderEnv) (outDir : String) (fs : List String)
      (t ft : String) (d : Date) (s : Stats) (ps : List String) (q : String),
      (env.templateOk = true → resolvedPdfPath outDir t ft d ∈ fs →
        generate_pdf env outDir fs t ft d =
          ((some (resolvedPdfPath outDir t ft d), true), fs, 0)) ∧
      ((runEntry s ps (.pdf (some q) true)).1.pdfs_skipped = s.pdfs_skipped + 1 ∧
       (runEntry s ps (.pdf (some q) true)).1.pdfs_generated = s.pdfs_generated ∧
       (runEntry s ps (.pdf (some q) true)).1.pdfs_failed = s.pdfs_failed) ∧
      (env.templateOk = true → env.engineOk = true → env2.templateOk = true →
        resolvedPdfPath outDir t ft d ∉ fs →
        generate_pdf env outDir fs t ft d =
          ((some (resolvedPdfPath outDir t ft d), false),
            resolvedPdfPath outDir t ft d :: fs, 1) ∧
        generate_pdf env2 outDir (resolvedPdfPath outDir t ft d :: fs) t ft d =
          ((some (resolvedPdfPath outDir t ft d), true),
            resolvedPdfPath outDir t ft d :: fs, 0)) := by
  intro env env2 outDir fs t ft d s ps q
  refine ⟨?_, ?_, ?_⟩
  · intro ht hmem
    simp [generate_pdf, ht, hmem]
  · simp [runEntry, markEntryRecent]
  · intro ht he ht2 hmem
    constructor
    · simp [generate_pdf, ht, he, hmem]
    · simp [generate_pdf, ht2]

/-- Concrete instance for C3: a fresh render followed by a second call for
the same entry, date and feed; the second call skips with the first call's
path and performs no engine invocation. -/
theorem c3_local_gate_witness :
    generate_pdf ⟨true, true⟩ "out" [] "A" "F" ⟨7, 28, 2025⟩ =
      ((some (resolvedPdfPath "out" "A" "F" ⟨7, 28, 2025⟩), false),
        resolvedPdfPath "out" "A" "F" ⟨7, 28, 2025⟩ :: [], 1) ∧
    generate_pdf ⟨true, false⟩ "out"
        (resolvedPdfPath "out" "A" "F" ⟨7, 28, 2025⟩ :: []) "A" "F" ⟨7, 28, 2025⟩ =
      ((some (resolvedPdfPath "out" "A" "F" ⟨7, 28, 2025⟩), true),
        resolvedPdfPath "out" "A" "F" ⟨7, 28, 2025⟩ :: [], 0) :=
  (c3_local_gate ⟨true, true⟩ ⟨true, false⟩ "out" [] "A" "F" ⟨7, 28, 2025⟩
    ⟨0,0,0,0,0,0,0,0,0,0⟩ [] "x").2.2 rfl rfl rfl (by decide)

/-! ### C10: title collision -/

/-- C10: the output filename depends on the entry title only through the
sanitize-strip-truncate normalization, so two distinct titles with equal
normalizations and the same date give the identical filename; for two such
recent entries of one feed, the path rendered for the first is resolved
again for the second, which is therefore reported skipped with the first
entry's path and never reaches the engine. -/
theorem c10_title_collision :
    ∀ (t1 t2 ft : String) (d : Date) (env : RenderEnv) (outDir : String)
      (fs : List String),
      normTitle t1 = normTitle t2 →
      (getOutputFilename t1 ft d = getOutputFilename t2 ft d ∧
       (env.templateOk = true → env.engineOk = true →
        resolvedPdfPath outDir t1 ft d ∉ fs →
        generate_pdf env outDir ((generate_pdf env outDir fs t1 ft d).2.1)
            t2 ft d =
          ((some (resolvedPdfPath outDir t1 ft d), true),
            resolvedPdfPath outDir t1 ft d :: fs, 0))) := by
  intro t1 t2 ft d env outDir fs hnorm
  have hfile : getOutputFilename t1 ft d = getOutputFilename t2 ft d := by
    simp [getOutputFilename, hnorm]
  have hpath : resolvedPdfPath outDir t2 ft d = resolvedPdfPath outDir t1 ft d := by
    simp [resolvedPdfPath, hfile]
  refine ⟨hfile, ?_⟩
  intro ht he hmem
  have h1 : generate_pdf env outDir fs t1 ft d =
      ((some (resolvedPdfPath outDir t1 ft d), false),
        resolvedPdfPath outDir t1 ft d :: fs, 1) := by
    simp [generate_pdf, ht, he, hmem]
  rw [h1]
  simp [generate_pdf, ht, hpath]

/-- Concrete instance for C10: the titles "A!" and "A?" are distinct but
normalize identically, so the second entry is skipped with the path rendered
for the first. -/
theorem c10_title_collision_witness :
    ("A!" : String) ≠ "A?" ∧
    generate_pdf ⟨true, true⟩ "out"
        ((generate_pdf ⟨true, true⟩ "out" [] "A!" "F" ⟨7, 28, 2025⟩).2.1)
        "A?" "F" ⟨7, 28, 2025⟩ =
      ((some (resolvedPdfPath "out" "A!" "F" ⟨7, 28, 2025⟩), true),
        resolvedPdfPath "out" "A!" "F" ⟨7, 28, 2025⟩ :: [], 0) :=
  ⟨by decide,
   (c10_title_collision "A!" "A?" "F" ⟨7, 28, 2025⟩ ⟨true, true⟩ "out" []
     (by decide)).2 rfl rfl (by decide)⟩

/-! ### C1: failure isolation -/

/-- C1: an exception escaping the processing of one feed is caught at the
per-feed boundary: the run keeps the statistics updates that feed had
already made, adds exactly one feeds_failed, and processes the remaining
feeds exactly as it would have; likewise an uncaught error on one entry
adds exactly one pdfs_failed (after the entries_recent increment when the
recency check had already accepted the entry) and the remaining entries of
the feed are processed exactly as they would have been. -/
theorem c1_failure_isolation :
    (∀ (s : Stats) (ps : List String) (fs1 fs2 : List FeedEval) (n : Nat)
       (es : List EntryEval),
      runFeeds s ps (fs1 ++ FeedEval.raiseDuring n es :: fs2) =
        runFeeds
          (markFeedFailed
            (runEntries (markFeedFetched n (runFeeds s ps fs1).1) [] es).1)
          (runFeeds s ps fs1).2 fs2) ∧
    (∀ (s : Stats) (ps : List String) (b : Bool) (es : List EntryEval),
      runEntries s ps (EntryEval.raise b :: es) =
        runEntries (markEntryFailed (if b then markEntryRecent s else s)) ps es) := by
  constructor
  · intro s ps fs1
    induction fs1 generalizing s ps with
    | nil =>
      intro fs2 n es
      simp only [List.nil_append, runFeeds]
    | cons f fs1 ih =>
      intro fs2 n es
      cases f with
      | fetchFail =>
        simp only [List.cons_append, runFeeds]
        exact ih (markFeedFailed s) ps fs2 n es
      | ok es0 =>
        simp only [List.cons_append, runFeeds]
        rcases hr : runEntries (markFeedFetched es0.length s) ps es0 with ⟨s1, ps1⟩
        exact ih s1 ps1 fs2 n es
      | raiseDuring n0 es0 =>
        simp only [List.cons_append, runFeeds]
        rcases hr : runEntries (markFeedFetched n0 s) [] es0 with ⟨s1, ps1⟩
        exact ih (markFeedFailed s1) ps fs2 n es
  · intro s ps b es
    simp [runEntries, runEntry]

/-! ### Helper lemmas on the remote gate -/

/-- The ensure-folder call issues only its find, possibly followed by its
mkdir. -/
theorem ensure_folder_trace (env : RmEnv) (f : String) :
    (ensure_folder_exists env f).2 = [Cmd.find f] ∨
    (ensure_folder_exists env f).2 = [Cmd.find f, Cmd.mkdir f] := by
  unfold ensure_folder_exists
  cases henv : env (Cmd.find f) with
  | done rc out err =>
    cases henv2 : env (Cmd.mkdir f) with
    | done rc2 out2 err2 => dsimp only; split_ifs <;> simp
    | timeout => dsimp only; split_ifs <;> simp
    | exn => dsimp only; split_ifs <;> simp
  | timeout => simp
  | exn => simp

/-- No upload command appears in an ensure-folder trace. -/
theorem put_not_mem_ensure_folder (env : RmEnv) (f file tgt : String) :
    Cmd.put file tgt ∉ (ensure_folder_exists env f).2 := by
  rcases ensure_folder_trace env f with h | h <;> simp [h]

/-- The per-file loop accounts each input path exactly once: its three
counters sum to the number of inputs. -/
theorem uploadLoop_sum (env : RmEnv) (folder : String) :
    ∀ files : List LocalPath,
      (uploadLoop env folder files).1.uploaded +
        (uploadLoop env folder files).1.skipped +
        (uploadLoop env folder files).1.failed = files.length := by
  intro files
  induction files with
  | nil => simp [uploadLoop]
  | cons p rest ih =>
    by_cases hex :
        (file_exists_in_remarkable env
          (get_remarkable_file_path folder p (inferFeedSubfolder p))).1 = true
    · simp [uploadLoop, hex]
      omega
    · simp only [Bool.not_eq_true] at hex
      by_cases hup : (upload_pdf env folder p (inferFeedSubfolder p)).1 = true
      · simp [uploadLoop, hex, hup]
        omega
      · simp only [Bool.not_eq_true] at hup
        simp [uploadLoop, hex, hup]
        omega

/-- Converting a string to its character list and back is the identity. -/
theorem asString_toList (s : String) : (s.toList).asString = s := by
  cases s; rfl

/-- The stem of a dotless-base filename with a .pdf extension is the base. -/
theorem pathStem_append_pdf (b : String) (hb : b ≠ "") :
    pathStem (b ++ ".pdf") = b := by
  have hl : b.toList ≠ [] := by
    intro hn; apply hb; cases b; simp_all [String.toList]
  have hlpos : 0 < b.toList.length := by
    cases hbl : b.toList with
    | nil => exact absurd hbl hl
    | cons a l => simp
  have hcs : (b ++ ".pdf").toList = b.toList ++ ['.', 'p', 'd', 'f'] := by
    simp [String.toList]
  have hext : ((b ++ ".pdf").toList.reverse.takeWhile (· ≠ '.')) =
      ['f', 'd', 'p'] := by
    rw [hcs]
    simp [List.takeWhile_cons]
  unfold pathStem
  rw [hext, hcs]
  have h1 : (['f', 'd', 'p'] : List Char).length <
      (b.toList ++ ['.', 'p', 'd', 'f']).length := by
    simp
  rw [if_pos h1]
  have h2 : ¬ ((b.toList ++ ['.', 'p', 'd', 'f']).length -
      (['f', 'd', 'p'] : List Char).length - 1 = 0) := by
    simp only [List.length_append, List.length_cons, List.length_nil]
    omega
  rw [if_neg h2]
  have h3 : (b.toList ++ ['.', 'p', 'd', 'f']).length -
      (['f', 'd', 'p'] : List Char).length - 1 = b.toList.length := by
    simp only [List.length_append, List.length_cons, List.length_nil]
    omega
  rw [h3, List.take_left, asString_toList]

/-- The availability check issues exactly the version probe. -/
theorem check_trace (env : RmEnv) :
    (check_rmapi_available env).2 = [Cmd.version] := rfl

/-! ### C2: batch counts and fast-fail -/

/-- C2: for every batch, uploaded + skipped + failed equals the number of
input paths; when the bridge-tool availability check fails the result is
zero uploaded, zero failed, all inputs skipped, with only the version probe
issued and no upload command; and likewise when ensuring the root folder
fails, with no upload command in the trace. -/
theorem c2_upload_counts :
    ∀ (env : RmEnv) (folder : String) (files : List LocalPath),
      ((upload_pdfs env folder files).1.uploaded +
        (upload_pdfs env folder files).1.skipped +
        (upload_pdfs env folder files).1.failed = files.length) ∧
      ((check_rmapi_available env).1 = false →
        upload_pdfs env folder files = (⟨0, 0, files.length⟩, [Cmd.version]) ∧
        (∀ f t, Cmd.put f t ∉ (upload_pdfs env folder files).2)) ∧
      ((check_rmapi_available env).1 = true →
        (ensure_folder_exists env folder).1 = false →
        (upload_pdfs env folder files).1 = ⟨0, 0, files.length⟩ ∧
        (∀ f t, Cmd.put f t ∉ (upload_pdfs env folder files).2)) := by
  intro env folder files
  refine ⟨?_, ?_, ?_⟩
  · by_cases hav : (check_rmapi_available env).1 = true
    · by_cases hok : (ensure_folder_exists env folder).1 = true
      · simp [upload_pdfs, hav, hok, uploadLoop_sum]
      · simp only [Bool.not_eq_true] at hok
        simp [upload_pdfs, hav, hok]
    · simp only [Bool.not_eq_true] at hav
      simp [upload_pdfs, hav]
  · intro hav
    have hmain : upload_pdfs env folder files =
        (⟨0, 0, files.length⟩, [Cmd.version]) := by
      simp [upload_pdfs, hav, check_trace]
    exact ⟨hmain, fun f t => by rw [hmain]; simp⟩
  · intro hav hok
    have hmain : upload_pdfs env folder files =
        (⟨0, 0, files.length⟩,
          Cmd.version :: (ensure_folder_exists env folder).2) := by
      simp [upload_pdfs, hav, hok, check_trace]
    refine ⟨by rw [hmain], fun f t => ?_⟩
    rw [hmain]
    simp [put_not_mem_ensure_folder]

/-- Concrete instance for C2: an environment whose every call raises fails
the availability check, so a one-element batch is returned all skipped with
only the version probe issued; an environment that answers the version probe
but fails both find and mkdir fails the root-folder step, so a two-element
batch is returned all skipped. -/
theorem c2_upload_counts_witness :
    upload_pdfs (fun _ => CallRes.exn) "AtomFeeds"
        [⟨["output", "F", "a.pdf"]⟩] = (⟨0, 0, 1⟩, [Cmd.version]) ∧
    (upload_pdfs
        (fun c => match c with
          | Cmd.version => CallRes.done 0 "v" ""
          | _ => CallRes.done 1 "" "")
        "AtomFeeds" [⟨["output", "F", "a.pdf"]⟩, ⟨["output", "F", "b.pdf"]⟩]).1 =
      ⟨0, 0, 2⟩ :=
  ⟨((c2_upload_counts (fun _ => CallRes.exn) "AtomFeeds"
      [⟨["output", "F", "a.pdf"]⟩]).2.1 (by decide)).1,
   ((c2_upload_counts
      (fun c => match c with
        | Cmd.version => CallRes.done 0 "v" ""
        | _ => CallRes.done 1 "" "")
      "AtomFeeds" [⟨["output", "F", "a.pdf"]⟩, ⟨["output", "F", "b.pdf"]⟩]).2.2
      (by decide) (by decide)).1⟩

/-! ### C4: remote idempotency -/

/-- C4: a path whose derived remote key the existence check reports present
is counted skipped by the batch loop, which issues only the find for it and
no upload command; and upload_pdf called directly on such a path reports
success having issued only the find. -/
theorem c4_remote_idempotency :
    ∀ (env : RmEnv) (folder : String) (p : LocalPath) (rest : List LocalPath)
      (sub : Option String),
      ((file_exists_in_remarkable env
          (get_remarkable_file_path folder p (inferFeedSubfolder p))).1 = true →
        (uploadLoop env folder (p :: rest)).1 =
          { (uploadLoop env folder rest).1 with
              skipped := (uploadLoop env folder rest).1.skipped + 1 } ∧
        (uploadLoop env folder (p :: rest)).2 =
          Cmd.find (get_remarkable_file_path folder p (inferFeedSubfolder p)) ::
            (uploadLoop env folder rest).2) ∧
      ((file_exists_in_remarkable env
          (get_remarkable_file_path folder p sub)).1 = true →
        upload_pdf env folder p sub =
          (true, [Cmd.find (get_remarkable_file_path folder p sub)])) := by
  intro env folder p rest sub
  have hfe : ∀ q, (file_exists_in_remarkable env q).1 = findHit env q :=
    fun q => rfl
  constructor
  · intro hex
    rw [hfe] at hex
    constructor
    · simp [uploadLoop, file_exists_in_remarkable, hex]
    · simp [uploadLoop, file_exists_in_remarkable, hex]
  · intro hex
    rw [hfe] at hex
    simp [upload_pdf, file_exists_in_remarkable, hex]

/-- Concrete instance for C4: with a remote store whose find always reports
present, upload_pdf on output/Feed/a.pdf answers success after only the find
of AtomFeeds/Feed/a, with no upload command issued. -/
theorem c4_remote_idempotency_witness :
    upload_pdf
        (fun c => match c with
          | Cmd.find _ => CallRes.done 0 "x" ""
          | _ => CallRes.exn)
        "AtomFeeds" ⟨["output", "Feed", "a.pdf"]⟩ (some "Feed") =
      (true, [Cmd.find "AtomFeeds/Feed/a"]) :=
  ((c4_remote_idempotency
      (fun c => match c with
        | Cmd.find _ => CallRes.done 0 "x" ""
        | _ => CallRes.exn)
      "AtomFeeds" ⟨["output", "Feed", "a.pdf"]⟩ [] (some "Feed")).2
    (by decide)).trans (by decide)

/-! ### C8: remote key derivation -/

/-- C8 counterexample: with the output root configured to a directory whose
basename is docs, the path docs/Feed/a.pdf has its grandparent segment equal
to the configured root basename, so the claimed rule infers the subfolder
Feed, but the code compares against the literal string output and infers
none. -/
theorem c8_counterexample :
    specInferSubfolder "docs" ⟨["docs", "Feed", "a.pdf"]⟩ = some "Feed" ∧
    inferFeedSubfolder ⟨["docs", "Feed", "a.pdf"]⟩ = none ∧
    ¬ inferFeedSubfolder ⟨["docs", "Feed", "a.pdf"]⟩ =
        specInferSubfolder "docs" ⟨["docs", "Feed", "a.pdf"]⟩ :=
  ⟨by decide, by decide, by decide⟩

/-- C8 amended: the remote key is root/sub/stem with stem the filename
without its extension, where the feed subfolder is the parent directory
name exactly when the grandparent segment equals the literal string
"output" — the basename of the default output root — rather than the
configured output root in general; the batch loop issues its existence
check at exactly this key. -/
theorem c8_remote_key_amended :
    ∀ (folder s : String) (p : LocalPath) (env : RmEnv)
      (rest : List LocalPath),
      inferFeedSubfolder p = specInferSubfolder "output" p ∧
      get_remarkable_file_path folder p (some s) =
        folder ++ "/" ++ s ++ "/" ++ pathStem (pathName p) ∧
      get_remarkable_file_path folder p none =
        folder ++ "/" ++ pathStem (pathName p) ∧
      (uploadLoop env folder (p :: rest)).2.head? =
        some (Cmd.find
          (get_remarkable_file_path folder p (inferFeedSubfolder p))) ∧
      (∀ b : String, b ≠ "" → pathStem (b ++ ".pdf") = b) := by
  intro folder s p env rest
  refine ⟨rfl, rfl, rfl, ?_, fun b hb => pathStem_append_pdf b hb⟩
  by_cases hex :
      findHit env (get_remarkable_file_path folder p (inferFeedSubfolder p)) = true
  · simp [uploadLoop, file_exists_in_remarkable, hex]
  · simp only [Bool.not_eq_true] at hex
    by_cases hup : (upload_pdf env folder p (inferFeedSubfolder p)).1 = true
    · simp [uploadLoop, file_exists_in_remarkable, hex, hup]
    · simp only [Bool.not_eq_true] at hup
      simp [uploadLoop, file_exists_in_remarkable, hex, hup]

/-- Concrete instance for C8 amended: under the default layout the key for
output/Feed/a.pdf strips the extension and uses the Feed subfolder. -/
theorem c8_remote_key_amended_witness :
    pathStem ("07-28-2025 Article" ++ ".pdf") = "07-28-2025 Article" :=
  (c8_remote_key_amended "AtomFeeds" "Feed" ⟨["output", "Feed", "a.pdf"]⟩
    (fun _ => CallRes.exn) []).2.2.2.2 "07-28-2025 Article" (by decide)

/-! ### Character-class lemmas for the markup model -/

/-- A character code in the lower-case target range converts back exactly. -/
theorem toNat_ofNat_lower (n : Nat) (h1 : 65 ≤ n) (h2 : n ≤ 122) :
    (Char.ofNat n).toNat = n := by
  have hv : n.isValidChar := by left; omega
  rw [Char.ofNat, dif_pos hv]
  rfl

/-- Alphanumeric characters are exactly the three ASCII code ranges. -/
theorem char_alnum_ranges (c : Char) :
    c.isAlphanum = true ↔
      (48 ≤ c.toNat ∧ c.toNat ≤ 57) ∨ (65 ≤ c.toNat ∧ c.toNat ≤ 90) ∨
        (97 ≤ c.toNat ∧ c.toNat ≤ 122) := by
  constructor
  · intro h
    simp [Char.isAlphanum, Char.isAlpha, Char.isDigit, Char.isUpper,
      Char.isLower] at h
    rcases h with (⟨h1, h2⟩ | ⟨h1, h2⟩) | ⟨h1, h2⟩
    · exact Or.inr (Or.inl ⟨h1, h2⟩)
    · exact Or.inr (Or.inr ⟨h1, h2⟩)
    · exact Or.inl ⟨h1, h2⟩
  · intro h
    simp [Char.isAlphanum, Char.isAlpha, Char.isDigit, Char.isUpper,
      Char.isLower]
    rcases h with ⟨h1, h2⟩ | ⟨h1, h2⟩ | ⟨h1, h2⟩
    · exact Or.inr ⟨h1, h2⟩
    · exact Or.inl (Or.inl ⟨h1, h2⟩)
    · exact Or.inl (Or.inr ⟨h1, h2⟩)

/-- Alphabetic characters are exactly the two ASCII letter ranges. -/
theorem char_alpha_ranges (c : Char) :
    c.isAlpha = true ↔
      (65 ≤ c.toNat ∧ c.toNat ≤ 90) ∨ (97 ≤ c.toNat ∧ c.toNat ≤ 122) := by
  constructor
  · intro h
    simp [Char.isAlpha, Char.isUpper, Char.isLower] at h
    rcases h with ⟨h1, h2⟩ | ⟨h1, h2⟩
    · exact Or.inl ⟨h1, h2⟩
    · exact Or.inr ⟨h1, h2⟩
  · intro h
    simp [Char.isAlpha, Char.isUpper, Char.isLower]
    rcases h with ⟨h1, h2⟩ | ⟨h1, h2⟩
    · exact Or.inl ⟨h1, h2⟩
    · exact Or.inr ⟨h1, h2⟩

/-- Characters with different codes differ. -/
theorem char_ne_of_toNat_ne (c d : Char) (h : c.toNat ≠ d.toNat) : c ≠ d :=
  fun he => h (congrArg Char.toNat he)

/-- The code of the lower-cased character. -/
theorem toNat_lowerChar (c : Char) :
    (lowerChar c).toNat =
      if 65 ≤ c.toNat ∧ c.toNat ≤ 90 then c.toNat + 32 else c.toNat := by
  unfold lowerChar
  by_cases h : 65 ≤ c.toNat ∧ c.toNat ≤ 90
  · rw [if_pos, if_pos h]
    · exact toNat_ofNat_lower _ (by omega) (by omega)
    · exact ⟨h.1, h.2⟩
  · rw [if_neg, if_neg h]
    intro hc
    exact h ⟨hc.1, hc.2⟩

/-- Lower-casing is idempotent. -/
theorem lowerChar_idem (c : Char) : lowerChar (lowerChar c) = lowerChar c := by
  unfold lowerChar
  by_cases h : 'A' ≤ c ∧ c ≤ 'Z'
  · have h1 : (65 : Nat) ≤ c.toNat := h.1
    have h2 : c.toNat ≤ 90 := h.2
    have ht : (Char.ofNat (c.toNat + 32)).toNat = c.toNat + 32 :=
      toNat_ofNat_lower _ (by omega) (by omega)
    rw [if_pos h, if_neg]
    intro hc
    have : (Char.ofNat (c.toNat + 32)).toNat ≤ 90 := hc.2
    omega
  · rw [if_neg h, if_neg h]

/-- Lower-casing preserves the name-character class. -/
theorem isNameChar_lowerChar (c : Char) (h : isNameChar c = true) :
    isNameChar (lowerChar c) = true := by
  unfold isNameChar at h ⊢
  rw [char_alnum_ranges] at h ⊢
  rw [toNat_lowerChar]
  rcases h with ⟨h1, h2⟩ | ⟨h1, h2⟩ | ⟨h1, h2⟩ <;> split_ifs <;> omega

/-- Lower-casing preserves the name-start class. -/
theorem isNameStart_lowerChar (c : Char) (h : isNameStart c = true) :
    isNameStart (lowerChar c) = true := by
  unfold isNameStart at h ⊢
  rw [char_alpha_ranges] at h ⊢
  rw [toNat_lowerChar]
  rcases h with ⟨h1, h2⟩ | ⟨h1, h2⟩ <;> split_ifs <;> omega

/-- A name-start character is a name character. -/
theorem isNameChar_of_start (c : Char) (h : isNameStart c = true) :
    isNameChar c = true := by
  unfold isNameStart at h
  unfold isNameChar
  simp [Char.isAlphanum, h]

/-- A name character is none of the markup metacharacters and is not
whitespace. -/
theorem nameChar_facts (c : Char) (h : isNameChar c = true) :
    c ≠ '<' ∧ c ≠ '>' ∧ c ≠ '/' ∧ c ≠ '=' ∧ c ≠ '"' ∧ c ≠ '&' ∧
      c.isWhitespace = false := by
  unfold isNameChar at h
  rw [char_alnum_ranges] at h
  have hne : ∀ k : Nat, (k < 48 ∨ (57 < k ∧ k < 65) ∨ (90 < k ∧ k < 97) ∨
      122 < k) → c.toNat ≠ k := by
    intro k hk
    rcases h with ⟨h1, h2⟩ | ⟨h1, h2⟩ | ⟨h1, h2⟩ <;> omega
  refine ⟨char_ne_of_toNat_ne _ _ (hne 60 (by omega)),
    char_ne_of_toNat_ne _ _ (hne 62 (by omega)),
    char_ne_of_toNat_ne _ _ (hne 47 (by omega)),
    char_ne_of_toNat_ne _ _ (hne 61 (by omega)),
    char_ne_of_toNat_ne _ _ (hne 34 (by omega)),
    char_ne_of_toNat_ne _ _ (hne 38 (by omega)), ?_⟩
  simp only [Char.isWhitespace]
  have w1 : c ≠ ' ' := char_ne_of_toNat_ne _ _ (hne 32 (by omega))
  have w2 : c ≠ '\t' := char_ne_of_toNat_ne _ _ (hne 9 (by omega))
  have w3 : c ≠ '\r' := char_ne_of_toNat_ne _ _ (hne 13 (by omega))
  have w4 : c ≠ '\n' := char_ne_of_toNat_ne _ _ (hne 10 (by omega))
  simp [w1, w2, w3, w4]

/-! ### List helpers -/

/-- takeWhile over a concatenation whose first part satisfies the test. -/
theorem takeWhile_append_all {p : Char → Bool} (l1 l2 : List Char)
    (h : ∀ x ∈ l1, p x = true) :
    (l1 ++ l2).takeWhile p = l1 ++ l2.takeWhile p := by
  induction l1 with
  | nil => simp
  | cons a l ih =>
    have ha : p a = true := h a (by simp)
    simp only [List.cons_append, List.takeWhile_cons, ha, if_true]
    rw [ih (fun x hx => h x (by simp [hx]))]

/-- dropWhile over a concatenation whose first part satisfies the test. -/
theorem dropWhile_append_all {p : Char → Bool} (l1 l2 : List Char)
    (h : ∀ x ∈ l1, p x = true) :
    (l1 ++ l2).dropWhile p = l2.dropWhile p := by
  induction l1 with
  | nil => simp
  | cons a l ih =>
    have ha : p a = true := h a (by simp)
    simp only [List.cons_append, List.dropWhile_cons, ha, if_true]
    exact ih (fun x hx => h x (by simp [hx]))

/-- A map whose function fixes every member is the identity. -/
theorem map_id_of_fixed {f : Char → Char} (l : List Char)
    (h : ∀ x ∈ l, f x = x) : l.map f = l := by
  induction l with
  | nil => rfl
  | cons a l ih =>
    simp only [List.map_cons, h a (by simp)]
    rw [ih (fun x hx => h x (by simp [hx]))]

/-! ### Induction over the DOM -/

/-- Structural induction over node lists, recursing into children. -/
theorem nodes_ind (P : List Node → Prop) (h0 : P [])
    (ht : ∀ s ns, P ns → P (.text s :: ns))
    (he : ∀ t as cs ns, P cs → P ns → P (.elem t as cs :: ns)) :
    ∀ ns, P ns := by
  have key : ∀ k ns, sizeOf ns ≤ k → P ns := by
    intro k
    induction k with
    | zero =>
      intro ns h
      exfalso
      have h1 : 1 ≤ sizeOf ns := by cases ns <;> simp <;> omega
      omega
    | succ k ih =>
      intro ns h
      match ns with
      | [] => exact h0
      | .text s :: rest =>
        exact ht s rest (ih rest (by simp at h ⊢; omega))
      | .elem t as cs :: rest =>
        exact he t as cs rest (ih cs (by simp at h ⊢; omega))
          (ih rest (by simp at h ⊢; omega))
  exact fun ns => key (sizeOf ns) ns le_rfl

/-! ### Escaping and entity decoding -/

/-- Escaped text contains no left angle bracket. -/
theorem escText_no_lt (s : List Char) : ∀ x ∈ escText s, x ≠ '<' := by
  intro x hx
  unfold escText at hx
  rcases List.mem_flatMap.mp hx with ⟨c, _, hin⟩
  unfold escTextChar at hin
  split_ifs at hin with h1 h2 h3
  · simp at hin; rcases hin with rfl | rfl | rfl | rfl | rfl <;> decide
  · simp at hin; rcases hin with rfl | rfl | rfl | rfl <;> decide
  · simp at hin; rcases hin with rfl | rfl | rfl | rfl <;> decide
  · simp at hin; subst hin; exact h2

/-- Escaped attribute values contain no double quote. -/
theorem escAttr_no_quote (s : List Char) : ∀ x ∈ escAttr s, x ≠ '"' := by
  intro x hx
  unfold escAttr at hx
  rcases List.mem_flatMap.mp hx with ⟨c, _, hin⟩
  unfold escAttrChar at hin
  split_ifs at hin with h1 h2 h3 h4
  · simp at hin; rcases hin with rfl | rfl | rfl | rfl | rfl <;> decide
  · simp at hin; rcases hin with rfl | rfl | rfl | rfl | rfl | rfl <;> decide
  · simp at hin; rcases hin with rfl | rfl | rfl | rfl <;> decide
  · simp at hin; rcases hin with rfl | rfl | rfl | rfl <;> decide
  · simp at hin; subst hin; exact h2

/-- Escaping distributes over concatenation of text runs. -/
theorem escText_append (a b : List Char) :
    escText (a ++ b) = escText a ++ escText b := by
  unfold escText
  exact List.flatMap_append a b escTextChar

/-- Escaped text of a nonempty run is nonempty. -/
theorem escText_ne_nil (s : List Char) (h : s ≠ []) : escText s ≠ [] := by
  cases s with
  | nil => exact absurd rfl h
  | cons c cs =>
    unfold escText
    simp only [List.flatMap_cons]
    intro hc
    rcases List.append_eq_nil.mp hc with ⟨h1, _⟩
    unfold escTextChar at h1
    split_ifs at h1 <;> simp at h1

/-- Entity decoding of a nonempty run is nonempty. -/
theorem decodeEnt_ne_nil (cs : List Char) (h : cs ≠ []) :
    decodeEnt cs ≠ [] := by
  cases cs with
  | nil => exact absurd rfl h
  | cons c cs' =>
    unfold decodeEnt
    split_ifs <;> simp

/-- Decoding inverts text escaping. -/
theorem decodeEnt_escText (s : List Char) : decodeEnt (escText s) = s := by
  induction s with
  | nil => simp [escText, decodeEnt]
  | cons c cs ih =>
    have hstep : escText (c :: cs) = escTextChar c ++ escText cs := by
      unfold escText; simp [List.flatMap_cons]
    rw [hstep]
    unfold escTextChar
    by_cases h1 : c = '&'
    · subst h1
      rw [if_pos rfl]
      show decodeEnt ('&' :: ('a' :: 'm' :: 'p' :: ';' :: escText cs)) = _
      unfold decodeEnt
      rw [if_pos rfl, if_pos (by simp [List.take])]
      simp only [List.drop]
      rw [ih]
    · rw [if_neg h1]
      by_cases h2 : c = '<'
      · subst h2
        rw [if_pos rfl]
        show decodeEnt ('&' :: ('l' :: 't' :: ';' :: escText cs)) = _
        unfold decodeEnt
        rw [if_pos rfl, if_neg (by simp [List.take]), if_pos (by simp [List.take])]
        simp only [List.drop]
        rw [ih]
      · rw [if_neg h2]
        by_cases h3 : c = '>'
        · subst h3
          rw [if_pos rfl]
          show decodeEnt ('&' :: ('g' :: 't' :: ';' :: escText cs)) = _
          unfold decodeEnt
          rw [if_pos rfl, if_neg (by simp [List.take]),
            if_neg (by simp [List.take]), if_pos (by simp [List.take])]
          simp only [List.drop]
          rw [ih]
        · rw [if_neg h3]
          show decodeEnt (c :: escText cs) = _
          unfold decodeEnt
          rw [if_neg h1, ih]

/-- Decoding inverts attribute-value escaping. -/
theorem decodeEnt_escAttr (s : List Char) : decodeEnt (escAttr s) = s := by
  induction s with
  | nil => simp [escAttr, decodeEnt]
  | cons c cs ih =>
    have hstep : escAttr (c :: cs) = escAttrChar c ++ escAttr cs := by
      unfold escAttr; simp [List.flatMap_cons]
    rw [hstep]
    unfold escAttrChar
    by_cases h1 : c = '&'
    · subst h1
      rw [if_pos rfl]
      show decodeEnt ('&' :: ('a' :: 'm' :: 'p' :: ';' :: escAttr cs)) = _
      unfold decodeEnt
      rw [if_pos rfl, if_pos (by simp [List.take])]
      simp only [List.drop]
      rw [ih]
    · rw [if_neg h1]
      by_cases hq : c = '"'
      · subst hq
        rw [if_pos rfl]
        show decodeEnt ('&' :: ('q' :: 'u' :: 'o' :: 't' :: ';' :: escAttr cs)) = _
        unfold decodeEnt
        rw [if_pos rfl, if_neg (by simp [List.take]),
          if_neg (by simp [List.take]), if_neg (by simp [List.take]),
          if_pos (by simp [List.take])]
        simp only [List.drop]
        rw [ih]
      · rw [if_neg hq]
        by_cases h2 : c = '<'
        · subst h2
          rw [if_pos rfl]
          show decodeEnt ('&' :: ('l' :: 't' :: ';' :: escAttr cs)) = _
          unfold decodeEnt
          rw [if_pos rfl, if_neg (by simp [List.take]), if_pos (by simp [List.take])]
          simp only [List.drop]
          rw [ih]
        · rw [if_neg h2]
          by_cases h3 : c = '>'
          · subst h3
            rw [if_pos rfl]
            show decodeEnt ('&' :: ('g' :: 't' :: ';' :: escAttr cs)) = _
            unfold decodeEnt
            rw [if_pos rfl, if_neg (by simp [List.take]),
              if_neg (by simp [List.take]), if_pos (by simp [List.take])]
            simp only [List.drop]
            rw [ih]
          · rw [if_neg h3]
            show decodeEnt (c :: escAttr cs) = _
            unfold decodeEnt
            rw [if_neg h1, ih]

/-! ### Parsing inverts serialization -/

/-- Parsing the serialized attribute portion recovers the attribute list. -/
theorem parseAttrs_ser :
    ∀ (as : List (List Char × List Char)) (rest : List Char) (fuel : Nat),
      wfAttrs as = true →
      (serAttrs as ++ '>' :: rest).length < fuel →
      parseAttrs fuel (serAttrs as ++ '>' :: rest) = some (as, false, rest) := by
  intro as
  induction as with
  | nil =>
    intro rest fuel hw hf
    cases fuel with
    | zero => simp at hf
    | succ fuel =>
      have hgt : Char.isWhitespace '>' = false := by decide
      unfold parseAttrs
      simp [serAttrs, List.dropWhile_cons, hgt]
  | cons kv as' ih =>
    rcases kv with ⟨an, v⟩
    intro rest fuel hw hf
    rw [wfAttrs, List.all_cons, Bool.and_eq_true] at hw
    obtain ⟨hw1, hw2⟩ := hw
    rw [show ((an, v).1 : List Char) = an from rfl] at hw1
    cases han : an with
    | nil => rw [han] at hw1; simp [wfName] at hw1
    | cons a antail =>
    rw [han] at hw1
    rw [wfName, Bool.and_eq_true, List.all_eq_true] at hw1
    obtain ⟨hstart, hall⟩ := hw1
    have hallc : ∀ x ∈ a :: antail, isNameChar x = true ∧ lowerChar x = x := by
      intro x hx
      have h := hall x hx
      rw [Bool.and_eq_true, beq_iff_eq] at h
      exact h
    cases fuel with
    | zero => simp at hf
    | succ fuel =>
    subst han
    have hser : serAttrs ((a :: antail, v) :: as') ++ '>' :: rest =
        ' ' :: (a :: (antail ++
          ('=' :: '"' :: (escAttr v ++
            '"' :: (serAttrs as' ++ '>' :: rest))))) := by
      simp [serAttrs, List.flatMap_cons]
    rw [hser] at hf ⊢
    set X : List Char :=
      '=' :: '"' :: (escAttr v ++ '"' :: (serAttrs as' ++ '>' :: rest))
      with hX
    have hws : Char.isWhitespace ' ' = true := by decide
    have hwa : Char.isWhitespace a = false :=
      (nameChar_facts a (hallc a (by simp)).1).2.2.2.2.2.2
    have hnegt : ¬ a = '>' := (nameChar_facts a (hallc a (by simp)).1).2.1
    have hnesl : ¬ a = '/' := (nameChar_facts a (hallc a (by simp)).1).2.2.1
    have heqn : isNameChar '=' = false := by decide
    have hquot : ∀ x ∈ escAttr v, (!decide (x = '"')) = true := by
      intro x hx
      simp [escAttr_no_quote v x hx]
    have htakev : List.takeWhile (fun ch => !decide (ch = '"'))
        (escAttr v ++ '"' :: (serAttrs as' ++ '>' :: rest)) = escAttr v := by
      rw [takeWhile_append_all _ _ hquot]
      simp [List.takeWhile_cons]
    have hdropv : List.dropWhile (fun ch => !decide (ch = '"'))
        (escAttr v ++ '"' :: (serAttrs as' ++ '>' :: rest)) =
        '"' :: (serAttrs as' ++ '>' :: rest) := by
      rw [dropWhile_append_all _ _ hquot]
      simp [List.dropWhile_cons]
    have hlen : (serAttrs as' ++ '>' :: rest).length < fuel := by
      rw [hX] at hf
      simp only [List.length_cons, List.length_append] at hf ⊢
      omega
    have hrec := ih rest fuel hw2 hlen
    have hina : isNameChar a = true := (hallc a (by simp)).1
    have hla : lowerChar a = a := (hallc a (by simp)).2
    have hmap2 : antail.map lowerChar = antail :=
      map_id_of_fixed _ (fun x hx => (hallc x (by simp [hx])).2)
    have htake2 : List.takeWhile isNameChar (antail ++ X) = antail := by
      rw [takeWhile_append_all _ _ (fun x hx => (hallc x (by simp [hx])).1),
        hX]
      simp [List.takeWhile_cons, heqn]
    have hdrop2 : List.dropWhile isNameChar (antail ++ X) = X := by
      rw [dropWhile_append_all _ _ (fun x hx => (hallc x (by simp [hx])).1),
        hX]
      simp [List.dropWhile_cons, heqn]
    unfold parseAttrs
    simp [List.takeWhile_cons, List.dropWhile_cons, hws, hwa, hina, hstart,
      hnegt, hnesl, heqn, htake2, hdrop2, hla, hmap2, hX, htakev, hdropv,
      hrec, decodeEnt_escAttr]

/-- Facts packaged from a well-formed name. -/
theorem wfName_chars (t : List Char) (hwt : wfName t = true) :
    ∀ x ∈ t, isNameChar x = true ∧ lowerChar x = x := by
  cases t with
  | nil => simp [wfName] at hwt
  | cons c0 ttail =>
    rw [wfName, Bool.and_eq_true, List.all_eq_true] at hwt
    intro x hx
    have h := hwt.2 x hx
    rw [Bool.and_eq_true, beq_iff_eq] at h
    exact h

/-- A well-formed name starts with a name-start character. -/
theorem wfName_start (c0 : Char) (ttail : List Char)
    (hwt : wfName (c0 :: ttail) = true) : isNameStart c0 = true := by
  rw [wfName, Bool.and_eq_true] at hwt
  exact hwt.1

/-- Lexing the serialized name of a start tag recovers the name and the
attribute portion. -/
theorem lexName_parts (t Y : List Char) (hwt : wfName t = true)
    (z : Char) (zs : List Char) (hzs : Y = z :: zs)
    (hz : isNameChar z = false) :
    List.takeWhile isNameChar (t ++ Y) = t ∧
      List.dropWhile isNameChar (t ++ Y) = Y ∧
      t.map lowerChar = t := by
  have hallc := wfName_chars t hwt
  refine ⟨?_, ?_, map_id_of_fixed _ (fun x hx => (hallc x hx).2)⟩
  · rw [takeWhile_append_all _ _ (fun x hx => (hallc x hx).1), hzs]
    simp [List.takeWhile_cons, hz]
  · rw [dropWhile_append_all _ _ (fun x hx => (hallc x hx).1), hzs]
    simp [List.dropWhile_cons, hz]

/-- The serialized attribute portion is nonempty and does not begin with a
name character. -/
theorem serAttrs_head (as : List (List Char × List Char)) (rest1 : List Char) :
    ∃ z zs, serAttrs as ++ '>' :: rest1 = z :: zs ∧ isNameChar z = false := by
  cases as with
  | nil => exact ⟨'>', rest1, by simp [serAttrs], by decide⟩
  | cons kv as2 =>
    refine ⟨' ',
      (kv.1 ++ ('=' :: '"' :: escAttr kv.2 ++ ['"'])) ++
        (serAttrs as2 ++ '>' :: rest1), ?_, by decide⟩
    simp [serAttrs, List.flatMap_cons]

/-- Parsing the serialized start tag recovers name and attributes. -/
theorem parseTag_ser (t : List Char) (as : List (List Char × List Char))
    (rest1 : List Char) (hwt : wfName t = true) (hwa : wfAttrs as = true) :
    parseTag (t ++ (serAttrs as ++ '>' :: rest1)) =
      some (t, as, false, rest1) := by
  obtain ⟨z, zs, hzs, hz⟩ := serAttrs_head as rest1
  obtain ⟨htk, hdk, hmap⟩ := lexName_parts t _ hwt z zs hzs hz
  have hrec := parseAttrs_ser as rest1 ((serAttrs as ++ '>' :: rest1).length + 1)
    hwa (Nat.lt_succ_self _)
  unfold parseTag
  simp only [htk, hdk, hmap]
  rw [hrec]

/-- Consuming the serialized close tag of the matching element. -/
theorem consumeClose_ser (t : List Char) (X : List Char)
    (hwt : wfName t = true) :
    consumeClose t ('<' :: '/' :: (t ++ '>' :: X)) = X := by
  have hgtn : isNameChar '>' = false := by decide
  obtain ⟨htk, hdk, hmap⟩ := lexName_parts t ('>' :: X) hwt '>' X rfl hgtn
  have hgtw : Char.isWhitespace '>' = false := by decide
  unfold consumeClose
  simp [htk, hdk, hmap, List.dropWhile_cons, hgtw]

/-- Parsing the serialization of a canonical tree, followed by input that is
empty or begins with a close tag, recovers the tree exactly and stops at
that input. -/
theorem parseNodes_ser :
    ∀ (fuel : Nat) (ns : List Node) (rest : List Char),
      OkL ns →
      (rest = [] ∨ ∃ r, rest = '<' :: '/' :: r) →
      (serNodes ns ++ rest).length < fuel →
      parseNodes fuel (serNodes ns ++ rest) = (ns, rest) := by
  intro fuel
  induction fuel with
  | zero =>
    intro ns rest _ _ hlen
    exact absurd hlen (Nat.not_lt_zero _)
  | succ fuel ih =>
    intro ns rest hok hrest hlen
    cases hok with
    | nil =>
      have hser : serNodes ([] : List Node) = [] := by simp [serNodes]
      rw [hser, List.nil_append]
      rcases hrest with rfl | ⟨r, rfl⟩
      · simp [parseNodes]
      · simp [parseNodes]
    | text s ns' hs hhead hok' =>
      have hser : serNodes (Node.text s :: ns') ++ rest =
          escText s ++ (serNodes ns' ++ rest) := by
        simp [serNodes, serNode]
      rw [hser] at hlen ⊢
      obtain ⟨y, ys, hesc⟩ : ∃ y ys, escText s = y :: ys := by
        cases hE : escText s with
        | nil => exact absurd hE (escText_ne_nil s hs)
        | cons y ys => exact ⟨y, ys, rfl⟩
      have hy : ¬ y = '<' := escText_no_lt s y (by rw [hesc]; simp)
      have hXshape : serNodes ns' ++ rest = [] ∨
          ∃ zs, serNodes ns' ++ rest = '<' :: zs := by
        cases hns' : ns' with
        | nil =>
          rcases hrest with rfl | ⟨r, rfl⟩
          · left; simp [serNodes]
          · right; exact ⟨'/' :: r, by simp [serNodes]⟩
        | cons n0 ns'' =>
          cases n0 with
          | text s0 => rw [hns'] at hhead; simp [headNotText] at hhead
          | elem t0 as0 cs0 =>
            right
            refine ⟨(t0 ++ serAttrs as0) ++ ('>' :: serNodes cs0) ++
              ('<' :: '/' :: t0 ++ ['>']) ++ (serNodes ns'' ++ rest), ?_⟩
            simp [serNodes, serNode]
      have hmemlt : ∀ x ∈ escText s, (!decide (x = '<')) = true := by
        intro x hx
        simp [escText_no_lt s x hx]
      have htw : List.takeWhile (fun ch => !decide (ch = '<'))
          (escText s ++ (serNodes ns' ++ rest)) = escText s := by
        rw [takeWhile_append_all _ _ hmemlt]
        rcases hXshape with hX0 | ⟨zs, hXc⟩
        · rw [hX0]; simp
        · rw [hXc]; simp [List.takeWhile_cons]
      have hdw : List.dropWhile (fun ch => !decide (ch = '<'))
          (escText s ++ (serNodes ns' ++ rest)) = serNodes ns' ++ rest := by
        rw [dropWhile_append_all _ _ hmemlt]
        rcases hXshape with hX0 | ⟨zs, hXc⟩
        · rw [hX0]; simp
        · rw [hXc]; simp [List.dropWhile_cons]
      have hsub : parseNodes fuel (serNodes ns' ++ rest) = (ns', rest) := by
        apply ih ns' rest hok' hrest
        have h1 : 1 ≤ (escText s).length := by
          rw [hesc]; simp
        simp only [List.length_append] at hlen ⊢
        omega
      have hcons : escText s ++ (serNodes ns' ++ rest) =
          y :: (ys ++ (serNodes ns' ++ rest)) := by
        rw [hesc]; simp
      have htw2 : List.takeWhile (fun ch => !decide (ch = '<'))
          (y :: (ys ++ (serNodes ns' ++ rest))) = escText s := by
        rw [← hcons]; exact htw
      have hdw2 : List.dropWhile (fun ch => !decide (ch = '<'))
          (y :: (ys ++ (serNodes ns' ++ rest))) = serNodes ns' ++ rest := by
        rw [← hcons]; exact hdw
      rw [hcons]
      unfold parseNodes
      simp [hy, htw2, hdw2, hsub, decodeEnt_escText]
    | elem t as cs ns' hwt hwa hokc hok' =>
      cases ht : t with
      | nil => rw [ht] at hwt; simp [wfName] at hwt
      | cons c0 ttail =>
      subst ht
      have hser : serNodes (Node.elem (c0 :: ttail) as cs :: ns') ++ rest =
          '<' :: ((c0 :: ttail) ++ (serAttrs as ++ '>' ::
            (serNodes cs ++ ('<' :: '/' :: ((c0 :: ttail) ++ '>' ::
              (serNodes ns' ++ rest)))))) := by
        simp [serNodes, serNode]
      rw [hser] at hlen ⊢
      have hstart := wfName_start c0 ttail hwt
      have hc0 : isNameChar c0 = true := isNameChar_of_start c0 hstart
      have hc0slash : ¬ c0 = '/' := (nameChar_facts c0 hc0).2.2.1
      have hpt : parseTag ((c0 :: ttail) ++ (serAttrs as ++ '>' ::
          (serNodes cs ++ ('<' :: '/' :: ((c0 :: ttail) ++ '>' ::
            (serNodes ns' ++ rest)))))) =
          some (c0 :: ttail, as, false,
            serNodes cs ++ ('<' :: '/' :: ((c0 :: ttail) ++ '>' ::
              (serNodes ns' ++ rest)))) :=
        parseTag_ser _ _ _ hwt hwa
      have hlen1 : (serNodes cs ++ ('<' :: '/' :: ((c0 :: ttail) ++ '>' ::
          (serNodes ns' ++ rest)))).length < fuel := by
        simp only [List.length_cons, List.length_append] at hlen ⊢
        omega
      have hlen2 : (serNodes ns' ++ rest).length < fuel := by
        simp only [List.length_cons, List.length_append] at hlen ⊢
        omega
      have hchild : parseNodes fuel
          (serNodes cs ++ ('<' :: '/' :: ((c0 :: ttail) ++ '>' ::
            (serNodes ns' ++ rest)))) =
          (cs, '<' :: '/' :: ((c0 :: ttail) ++ '>' ::
            (serNodes ns' ++ rest))) :=
        ih cs _ hokc (Or.inr ⟨_, rfl⟩) hlen1
      have hcc : consumeClose (c0 :: ttail)
          ('<' :: '/' :: ((c0 :: ttail) ++ '>' :: (serNodes ns' ++ rest))) =
          serNodes ns' ++ rest :=
        consumeClose_ser _ _ hwt
      have hsib : parseNodes fuel (serNodes ns' ++ rest) = (ns', rest) :=
        ih ns' rest hok' hrest hlen2
      unfold parseNodes
      simp only [List.cons_append] at hpt hchild hcc hsib ⊢
      simp [hc0slash, hstart, hpt, hchild, hcc, hsib]

/-- The top-level parser returns the node list when the node-list parser
consumes the whole input. -/
theorem parseTop_of_parseNodes (n : Nat) (cs : List Char) (ns : List Node)
    (h : parseNodes (cs.length + 1) cs = (ns, [])) :
    parseTop (n + 1) cs = ns := by
  unfold parseTop
  rw [h]

/-- Parsing the serialization of a canonical tree recovers it. -/
theorem parseHtml_ser (ns : List Node) (hok : OkL ns) :
    parseHtml (serNodes ns) = ns := by
  have hp : parseNodes ((serNodes ns).length + 1) (serNodes ns ++ []) =
      (ns, []) :=
    parseNodes_ser _ ns [] hok (Or.inl rfl) (by simp)
  rw [List.append_nil] at hp
  exact parseTop_of_parseNodes _ _ _ hp

/-! ### Text merging, cleaning and safety -/

/-- Merging adjacent text runs does not change the serialization. -/
theorem serNodes_mergeTexts : ∀ ns, serNodes (mergeTexts ns) = serNodes ns := by
  intro ns
  induction ns using nodes_ind with
  | h0 => simp [mergeTexts]
  | ht s ns ih =>
    cases hm : mergeTexts ns with
    | nil =>
      have heq : mergeTexts (Node.text s :: ns) = [Node.text s] := by
        simp only [mergeTexts]; rw [hm]
      rw [heq]
      rw [hm] at ih
      simp [serNodes, serNode, ← ih]
    | cons m ms =>
      cases m with
      | text s2 =>
        have heq : mergeTexts (Node.text s :: ns) =
            Node.text (s ++ s2) :: ms := by
          simp only [mergeTexts]; rw [hm]
        rw [heq]
        rw [hm] at ih
        simp only [serNodes, serNode] at ih ⊢
        rw [escText_append, ← ih]
        simp
      | elem t0 as0 cs0 =>
        have heq : mergeTexts (Node.text s :: ns) =
            Node.text s :: (Node.elem t0 as0 cs0 :: ms) := by
          simp only [mergeTexts]; rw [hm]
        rw [heq]
        rw [hm] at ih
        simp only [serNodes, serNode] at ih ⊢
        rw [ih]
  | he t as cs ns ihc ihn =>
    have heq : mergeTexts (Node.elem t as cs :: ns) =
        Node.elem t as (mergeTexts cs) :: mergeTexts ns := by
      simp only [mergeTexts]
    rw [heq]
    simp only [serNodes, serNode, ihc, ihn]

/-- Merging the texts of a parser-shaped tree yields a canonical tree. -/
theorem mergeTexts_ok : ∀ ns, PreOkL ns → OkL (mergeTexts ns) := by
  intro ns h
  induction h with
  | nil =>
    have : mergeTexts [] = [] := by simp [mergeTexts]
    rw [this]; exact OkL.nil
  | text s ns hs hpre ih =>
    cases hm : mergeTexts ns with
    | nil =>
      have heq : mergeTexts (Node.text s :: ns) = [Node.text s] := by
        simp only [mergeTexts]; rw [hm]
      rw [heq]
      exact OkL.text s [] hs (by simp [headNotText]) OkL.nil
    | cons m ms =>
      cases m with
      | text s2 =>
        have heq : mergeTexts (Node.text s :: ns) =
            Node.text (s ++ s2) :: ms := by
          simp only [mergeTexts]; rw [hm]
        rw [heq]
        rw [hm] at ih
        cases ih with
        | text _ _ hs2 hh2 hok2 =>
          refine OkL.text _ _ ?_ hh2 hok2
          intro hc
          exact hs (List.append_eq_nil.mp hc).1
      | elem t0 as0 cs0 =>
        have heq : mergeTexts (Node.text s :: ns) =
            Node.text s :: (Node.elem t0 as0 cs0 :: ms) := by
          simp only [mergeTexts]; rw [hm]
        rw [heq]
        rw [hm] at ih
        exact OkL.text _ _ hs (by simp [headNotText]) ih
  | elem t as cs ns hwt hwa hpc hpn ihc ihn =>
    have heq : mergeTexts (Node.elem t as cs :: ns) =
        Node.elem t as (mergeTexts cs) :: mergeTexts ns := by
      simp only [mergeTexts]
    rw [heq]
    exact OkL.elem _ _ _ _ hwt hwa ihc ihn

/-- Merging preserves sanitized trees. -/
theorem mergeTexts_safe : ∀ ns, SafeL ns → SafeL (mergeTexts ns) := by
  intro ns h
  induction h with
  | nil =>
    have : mergeTexts [] = [] := by simp [mergeTexts]
    rw [this]; exact SafeL.nil
  | text s ns hsafe ih =>
    cases hm : mergeTexts ns with
    | nil =>
      have heq : mergeTexts (Node.text s :: ns) = [Node.text s] := by
        simp only [mergeTexts]; rw [hm]
      rw [heq]
      exact SafeL.text s [] SafeL.nil
    | cons m ms =>
      cases m with
      | text s2 =>
        have heq : mergeTexts (Node.text s :: ns) =
            Node.text (s ++ s2) :: ms := by
          simp only [mergeTexts]; rw [hm]
        rw [heq]
        rw [hm] at ih
        cases ih with
        | text _ _ hok2 => exact SafeL.text _ _ hok2
      | elem t0 as0 cs0 =>
        have heq : mergeTexts (Node.text s :: ns) =
            Node.text s :: (Node.elem t0 as0 cs0 :: ms) := by
          simp only [mergeTexts]; rw [hm]
        rw [heq]
        rw [hm] at ih
        exact SafeL.text _ _ ih
  | elem t as cs ns hnun hattr hsc hsn ihc ihn =>
    have heq : mergeTexts (Node.elem t as cs :: ns) =
        Node.elem t as (mergeTexts cs) :: mergeTexts ns := by
      simp only [mergeTexts]
    rw [heq]
    exact SafeL.elem _ _ _ _ hnun hattr ihc ihn

/-- Cleaning always produces a sanitized tree: no unsafe element survives
and every surviving attribute is allow-listed, at every depth. -/
theorem cleanNodes_safe : ∀ ns, SafeL (cleanNodes ns) := by
  intro ns
  induction ns using nodes_ind with
  | h0 =>
    have heq : cleanNodes [] = [] := by
      simp [cleanNodes, removeUnsafeL, filterAttrsL]
    rw [heq]; exact SafeL.nil
  | ht s ns ih =>
    have heq : cleanNodes (Node.text s :: ns) = Node.text s :: cleanNodes ns := by
      simp [cleanNodes, removeUnsafeL, filterAttrsL]
    rw [heq]
    exact SafeL.text _ _ ih
  | he t as cs ns ihc ihn =>
    by_cases hu : t ∈ unsafeTags
    · have heq : cleanNodes (Node.elem t as cs :: ns) = cleanNodes ns := by
        simp [cleanNodes, removeUnsafeL, hu]
      rw [heq]; exact ihn
    · have heq : cleanNodes (Node.elem t as cs :: ns) =
          Node.elem t (as.filter (fun kv => kv.1 ∈ safeAttrs))
            (cleanNodes cs) :: cleanNodes ns := by
        simp [cleanNodes, removeUnsafeL, filterAttrsL, hu]
      rw [heq]
      exact SafeL.elem _ _ _ _ hu
        (fun kv hkv => of_decide_eq_true (List.mem_filter.mp hkv).2) ihc ihn

/-- Cleaning is the identity on sanitized trees. -/
theorem cleanNodes_of_safe : ∀ ns, SafeL ns → cleanNodes ns = ns := by
  intro ns h
  induction h with
  | nil => simp [cleanNodes, removeUnsafeL, filterAttrsL]
  | text s ns hsafe ih =>
    have heq : cleanNodes (Node.text s :: ns) = Node.text s :: cleanNodes ns := by
      simp [cleanNodes, removeUnsafeL, filterAttrsL]
    rw [heq, ih]
  | elem t as cs ns hnun hattr hsc hsn ihc ihn =>
    have heq : cleanNodes (Node.elem t as cs :: ns) =
        Node.elem t (as.filter (fun kv => kv.1 ∈ safeAttrs))
          (cleanNodes cs) :: cleanNodes ns := by
      simp [cleanNodes, removeUnsafeL, filterAttrsL, hnun]
    rw [heq, ihc, ihn, List.filter_eq_self.mpr]
    intro kv hkv
    simp [hattr kv hkv]

/-- Cleaning preserves parser-shaped trees. -/
theorem cleanNodes_preOk : ∀ ns, PreOkL ns → PreOkL (cleanNodes ns) := by
  intro ns h
  induction h with
  | nil =>
    have heq : cleanNodes [] = [] := by
      simp [cleanNodes, removeUnsafeL, filterAttrsL]
    rw [heq]; exact PreOkL.nil
  | text s ns hs hpre ih =>
    have heq : cleanNodes (Node.text s :: ns) = Node.text s :: cleanNodes ns := by
      simp [cleanNodes, removeUnsafeL, filterAttrsL]
    rw [heq]
    exact PreOkL.text s _ hs ih
  | elem t as cs ns hwt hwa hpc hpn ihc ihn =>
    by_cases hu : t ∈ unsafeTags
    · have heq : cleanNodes (Node.elem t as cs :: ns) = cleanNodes ns := by
        simp [cleanNodes, removeUnsafeL, hu]
      rw [heq]; exact ihn
    · have heq : cleanNodes (Node.elem t as cs :: ns) =
          Node.elem t (as.filter (fun kv => kv.1 ∈ safeAttrs))
            (cleanNodes cs) :: cleanNodes ns := by
        simp [cleanNodes, removeUnsafeL, filterAttrsL, hu]
      rw [heq]
      refine PreOkL.elem t _ _ _ hwt ?_ ihc ihn
      rw [wfAttrs, List.all_eq_true] at hwa ⊢
      intro kv hkv
      exact hwa kv (List.mem_filter.mp hkv).1

/-- Parser-shapedness of a concatenation. -/
theorem preOk_append : ∀ a b, PreOkL a → PreOkL b → PreOkL (a ++ b) := by
  intro a b ha hb
  induction ha with
  | nil => exact hb
  | text s ns hs hpre ih => exact PreOkL.text s _ hs ih
  | elem t as cs ns hwt hwa hpc hpn ihc ihn =>
    exact PreOkL.elem t as cs _ hwt hwa hpc ihn

/-- A lexed and lower-cased name beginning with a name-start character is
well formed. -/
theorem wfName_lexed (c : Char) (rest : List Char)
    (h : isNameStart c = true) :
    wfName (((c :: rest).takeWhile isNameChar).map lowerChar) = true := by
  have hc : isNameChar c = true := isNameChar_of_start c h
  rw [List.takeWhile_cons, if_pos hc, List.map_cons]
  rw [wfName, Bool.and_eq_true, List.all_eq_true]
  constructor
  · exact isNameStart_lowerChar c h
  · intro y hy
    rw [Bool.and_eq_true, beq_iff_eq]
    rcases List.mem_cons.mp hy with rfl | hy2
    · exact ⟨isNameChar_lowerChar c hc, lowerChar_idem c⟩
    · rcases List.mem_map.mp hy2 with ⟨x, hx, rfl⟩
      have hxc : isNameChar x = true :=
        List.mem_takeWhile_imp hx
      exact ⟨isNameChar_lowerChar x hxc, lowerChar_idem x⟩

/-- Every attribute list the attribute parser returns is well formed. -/
theorem parseAttrs_wf :
    ∀ (fuel : Nat) (cs : List Char) (as : List (List Char × List Char))
      (sc : Bool) (r : List Char),
      parseAttrs fuel cs = some (as, sc, r) → wfAttrs as = true := by
  intro fuel
  induction fuel with
  | zero => intro cs as sc r h; simp [parseAttrs] at h
  | succ fuel ih =>
    intro cs as sc r h
    unfold parseAttrs at h
    cases hcs1 : cs.dropWhile Char.isWhitespace with
    | nil => rw [hcs1] at h; simp at h
    | cons c rest =>
      rw [hcs1] at h
      dsimp only at h
      by_cases h1 : c = '>'
      · rw [if_pos h1] at h
        simp at h
        rw [h.1]
        rfl
      · rw [if_neg h1] at h
        by_cases h2 : c = '/'
        · rw [if_pos h2] at h
          cases rest with
          | nil => simp at h
          | cons d r2 =>
            dsimp only at h
            by_cases hd : d = '>'
            · rw [if_pos hd] at h
              simp at h
              rw [h.1]
              rfl
            · rw [if_neg hd] at h; simp at h
        · rw [if_neg h2] at h
          by_cases h3 : isNameStart c = true
          · rw [if_pos h3] at h
            cases hr1 : (c :: rest).dropWhile isNameChar with
            | nil => rw [hr1] at h; simp at h
            | cons d r2 =>
              rw [hr1] at h
              dsimp only at h
              by_cases hd : d = '='
              · rw [if_pos hd] at h
                cases r2 with
                | nil => simp at h
                | cons e r3 =>
                  dsimp only at h
                  by_cases he : e = '"'
                  · rw [if_pos he] at h
                    cases hr4 : r3.dropWhile (fun ch => decide (ch ≠ '"')) with
                    | nil => rw [hr4] at h; simp at h
                    | cons f r5 =>
                      rw [hr4] at h
                      dsimp only at h
                      cases hrec : parseAttrs fuel r5 with
                      | none => rw [hrec] at h; simp at h
                      | some q =>
                        rcases q with ⟨as2, sc2, r6⟩
                        rw [hrec] at h
                        simp at h
                        obtain ⟨has, _, _⟩ := h
                        rw [← has, wfAttrs, List.all_cons, Bool.and_eq_true]
                        exact ⟨wfName_lexed c rest h3, ih r5 as2 sc2 r6 hrec⟩
                  · rw [if_neg he] at h
                    cases hrec : parseAttrs fuel
                        ((e :: r3).dropWhile
                          (fun ch =>
                            decide (¬ ch.isWhitespace = true) &&
                              decide (ch ≠ '>'))) with
                    | none => rw [hrec] at h; simp at h
                    | some q =>
                      rcases q with ⟨as2, sc2, r6⟩
                      rw [hrec] at h
                      simp at h
                      obtain ⟨has, _, _⟩ := h
                      rw [← has, wfAttrs, List.all_cons, Bool.and_eq_true]
                      exact ⟨wfName_lexed c rest h3, ih _ as2 sc2 r6 hrec⟩
              · rw [if_neg hd] at h
                cases hrec : parseAttrs fuel (d :: r2) with
                | none => rw [hrec] at h; simp at h
                | some q =>
                  rcases q with ⟨as2, sc2, r6⟩
                  rw [hrec] at h
                  simp at h
                  obtain ⟨has, _, _⟩ := h
                  rw [← has, wfAttrs, List.all_cons, Bool.and_eq_true]
                  exact ⟨wfName_lexed c rest h3, ih _ as2 sc2 r6 hrec⟩
          · rw [if_neg h3] at h; simp at h

/-- The name and attributes a parsed start tag returns are well formed. -/
theorem parseTag_wf (t : List Char)
    (as : List (List Char × List Char)) (sc : Bool) (r : List Char)
    (d : Char) (cs2 : List Char)
    (hd : isNameStart d = true)
    (h : parseTag (d :: cs2) = some (t, as, sc, r)) :
    wfName t = true ∧ wfAttrs as = true := by
  unfold parseTag at h
  dsimp only at h
  cases hpa : parseAttrs (((d :: cs2).dropWhile isNameChar).length + 1)
      ((d :: cs2).dropWhile isNameChar) with
  | none => rw [hpa] at h; simp at h
  | some q =>
    rcases q with ⟨as2, sc2, r2⟩
    rw [hpa] at h
    simp at h
    obtain ⟨ht, has, _, _⟩ := h
    constructor
    · rw [← ht]; exact wfName_lexed d cs2 hd
    · rw [← has]; exact parseAttrs_wf _ _ _ _ _ hpa

/-- Every tree the node-list parser produces is parser-shaped: nonempty
text runs and well-formed names throughout. -/
theorem parseNodes_preOk :
    ∀ (fuel : Nat) (cs : List Char), PreOkL (parseNodes fuel cs).1 := by
  intro fuel
  induction fuel with
  | zero => intro cs; exact PreOkL.nil
  | succ fuel ih =>
    intro cs
    cases cs with
    | nil => exact PreOkL.nil
    | cons c cs1 =>
      by_cases hc : c = '<'
      · subst hc
        cases cs1 with
        | nil =>
          simp [parseNodes]
          exact PreOkL.text _ _ (by simp) PreOkL.nil
        | cons d cs2 =>
          by_cases hd : d = '/'
          · simp [parseNodes, hd]
            exact PreOkL.nil
          · by_cases hs : isNameStart d = true
            · cases hpt : parseTag (d :: cs2) with
              | none =>
                have hih := ih (d :: cs2)
                rcases hpr : parseNodes fuel (d :: cs2) with ⟨sib, r2⟩
                rw [hpr] at hih
                simp [parseNodes, hd, hs, hpt, hpr]
                exact PreOkL.text _ _ (by simp) hih
              | some q =>
                rcases q with ⟨t, as, sc, r⟩
                obtain ⟨hwt, hwa⟩ := parseTag_wf t as sc r d cs2 hs hpt
                cases sc with
                | true =>
                  have hih := ih r
                  rcases hpr : parseNodes fuel r with ⟨sib, r2⟩
                  rw [hpr] at hih
                  simp [parseNodes, hd, hs, hpt, hpr]
                  exact PreOkL.elem _ _ _ _ hwt hwa PreOkL.nil hih
                | false =>
                  have hih1 := ih r
                  rcases hpr1 : parseNodes fuel r with ⟨children, r2⟩
                  rw [hpr1] at hih1
                  have hih2 := ih (consumeClose t r2)
                  rcases hpr2 : parseNodes fuel (consumeClose t r2) with
                    ⟨sib, r4⟩
                  rw [hpr2] at hih2
                  simp [parseNodes, hd, hs, hpt, hpr1, hpr2]
                  exact PreOkL.elem _ _ _ _ hwt hwa hih1 hih2
            · have hih := ih (d :: cs2)
              rcases hpr : parseNodes fuel (d :: cs2) with ⟨sib, r2⟩
              rw [hpr] at hih
              simp [parseNodes, hd, hs, hpr]
              exact PreOkL.text _ _ (by simp) hih
      · have hih := ih (cs1.dropWhile (fun ch => !decide (ch = '<')))
        rcases hpr : parseNodes fuel
            (cs1.dropWhile (fun ch => !decide (ch = '<'))) with ⟨sib, r2⟩
        rw [hpr] at hih
        simp [parseNodes, List.dropWhile_cons, List.takeWhile_cons, hc, hpr]
        refine PreOkL.text _ _ ?_ hih
        apply decodeEnt_ne_nil
        simp

/-- Converting a character list to a string and back is the identity. -/
theorem toList_asString (l : List Char) : (l.asString).toList = l := rfl

/-- Every tree the top-level parser produces is parser-shaped. -/
theorem parseTop_preOk :
    ∀ (fuel : Nat) (cs : List Char), PreOkL (parseTop fuel cs) := by
  intro fuel
  induction fuel with
  | zero => intro cs; exact PreOkL.nil
  | succ fuel ih =>
    intro cs
    have hpre := parseNodes_preOk (cs.length + 1) cs
    rcases hpn : parseNodes (cs.length + 1) cs with ⟨ns, rest⟩
    rw [hpn] at hpre
    dsimp only at hpre
    unfold parseTop
    rw [hpn]
    dsimp only
    cases rest with
    | nil => exact hpre
    | cons x r1 =>
      dsimp only
      cases hr2 : r1.dropWhile (fun ch => decide (ch ≠ '>')) with
      | nil => exact hpre
      | cons y r3 => exact preOk_append _ _ hpre (ih r3)

/-- The conditional unfolding of clean_html_content on nonempty input on
which the collaborator does not raise. -/
theorem clean_html_content_def (env : String → Bool) (y : String)
    (hy : ¬ y = "") (hf : env y = false) :
    clean_html_content env y =
      (serNodes (cleanNodes (parseHtml y.toList))).asString := by
  unfold clean_html_content
  rw [if_neg hy, if_neg (by rw [hf]; exact Bool.false_ne_true)]

/-- The except fallback of clean_html_content (main.py:217-219): when the
collaborator raises on nonempty input, the original content is returned
unchanged. -/
theorem clean_html_content_raises (env : String → Bool) (y : String)
    (hy : ¬ y = "") (hr : env y = true) :
    clean_html_content env y = y := by
  unfold clean_html_content
  rw [if_neg hy, if_pos hr]

/-! ### C9: sanitizer idempotency and safety -/

/-- C9 counterexample: when the markup collaborator raises on the input
(the except branch of main.py:217-219), clean_html_content returns the
original content unchanged, so on a script-only input the output still
contains a script element — the universal no-unsafe-element conclusion of
the claim is false on the fallback path. -/
theorem c9_counterexample :
    clean_html_content (fun _ => true) "<script></script>" =
      "<script></script>" ∧
    ¬ SafeL (parseHtml
      (clean_html_content (fun _ => true) "<script></script>").toList) := by
  have hclean : clean_html_content (fun _ => true) "<script></script>" =
      "<script></script>" := by
    unfold clean_html_content
    rw [if_neg (by decide), if_pos rfl]
  refine ⟨hclean, ?_⟩
  rw [hclean]
  have hparse : parseHtml (("<script></script>" : String).toList) =
      [Node.elem ['s','c','r','i','p','t'] [] []] := by rfl
  rw [hparse]
  intro h
  cases h with
  | elem _ _ _ _ hnun _ _ _ =>
    exact hnun (by simp [unsafeTags])

/-- C9 (amended): sanitization is idempotent for every input and every
raise/no-raise behaviour of the markup collaborator — the except fallback
returns its input unchanged and a completed cleaning pass is a fixed point
of a further pass — and whenever the collaborator does not raise on the
input, the output, reparsed, is a sanitized document: it contains no
script, style, iframe, object or embed element and no attribute outside
the href, src, alt, title, class, id allow-list, at any depth. On the
fallback path the original unsanitized content is returned and the
invariant can fail. -/
theorem c9_sanitizer_amended :
    ∀ (env : String → Bool) (x : String),
      clean_html_content env (clean_html_content env x) =
        clean_html_content env x ∧
      (env x = false →
        SafeL (parseHtml (clean_html_content env x).toList)) := by
  intro env x
  by_cases hx : x = ""
  · subst hx
    have hc : clean_html_content env "" = "" := by
      unfold clean_html_content
      rw [if_pos rfl]
    have hpe : parseHtml (("" : String).toList) = [] :=
      parseTop_of_parseNodes 0 [] [] rfl
    rw [hc, hpe]
    exact ⟨hc, fun _ => SafeL.nil⟩
  · by_cases hr : env x = true
    · have hc : clean_html_content env x = x :=
        clean_html_content_raises env x hx hr
      constructor
      · rw [hc]
        exact hc
      · intro hfx
        rw [hfx] at hr
        exact absurd hr Bool.false_ne_true
    · have hf : env x = false := by
        cases henv : env x with
        | true => exact absurd henv hr
        | false => rfl
      have hpre : PreOkL (parseHtml x.toList) := parseTop_preOk _ _
      have hpre2 : PreOkL (cleanNodes (parseHtml x.toList)) :=
        cleanNodes_preOk _ hpre
      have hok : OkL (mergeTexts (cleanNodes (parseHtml x.toList))) :=
        mergeTexts_ok _ hpre2
      have hsafe : SafeL (cleanNodes (parseHtml x.toList)) :=
        cleanNodes_safe _
      have hsafem : SafeL (mergeTexts (cleanNodes (parseHtml x.toList))) :=
        mergeTexts_safe _ hsafe
      have hcx : clean_html_content env x =
          (serNodes (cleanNodes (parseHtml x.toList))).asString :=
        clean_html_content_def env x hx hf
      have hparse : parseHtml (clean_html_content env x).toList =
          mergeTexts (cleanNodes (parseHtml x.toList)) := by
        rw [hcx, toList_asString,
          ← serNodes_mergeTexts (cleanNodes (parseHtml x.toList))]
        exact parseHtml_ser _ hok
      constructor
      · by_cases hc0 : clean_html_content env x = ""
        · rw [hc0]
          unfold clean_html_content
          rw [if_pos rfl]
        · by_cases hry : env (clean_html_content env x) = true
          · exact clean_html_content_raises env _ hc0 hry
          · have hfy : env (clean_html_content env x) = false := by
              cases henv : env (clean_html_content env x) with
              | true => exact absurd henv hry
              | false => rfl
            rw [clean_html_content_def env _ hc0 hfy, hparse,
              cleanNodes_of_safe _ hsafem, serNodes_mergeTexts]
            exact hcx.symm
      · intro _
        rw [hparse]
        exact hsafem

/-- Witness for c9_sanitizer_amended at a concrete never-raising
collaborator and input. -/
theorem c9_sanitizer_amended_witness :
    SafeL (parseHtml
      (clean_html_content (fun _ => false) "<p>a</p>").toList) :=
  (c9_sanitizer_amended (fun _ => false) "<p>a</p>").2 rfl
